import Mathlib

/-!
# Restaurant order queue: a verification development

Shallow embedding of `restaurant_main.cpp`:

* `MenuItem`, `Menu.getItemById`, `Order`, `Order.lt` (the reversed `operator<`);
* `std::priority_queue<Order>` as the binary heap it is: a vector plus the
  `push_heap` / `pop_heap` algorithms (hole-based sift, as in libstdc++);
* `OrderQueue` with its three counting semaphores, `addOrder` and `getOrder`
  as the composition of their atomic steps (`none` = the caller blocks);
* the interleaved execution of `Client` threads (one `addOrder`) and `Server`
  threads (`getOrder` in a loop) as a step function on a system state;
* `Client.placeOrder`.

C++ `int` values are embedded as `Int`; the only arithmetic performed on them
(`rand() % 5 + 1`) cannot overflow.
-/

namespace Restaurant

/-! ## Data model -/

/-- Menu entry (`class MenuItem`). -/
structure MenuItem where
  id : Int
  name : String
  prepTime : Int
  eatTime : Int
deriving DecidableEq, Repr

/-- Menu: `class Menu`, the vector `menuItems`. -/
structure Menu where
  menuItems : List MenuItem
deriving Repr

/-- Loop of `Menu::getItemById`: the first entry whose id matches, else the
synthetic `MenuItem(0, "Invalid", 0, 0)`. -/
def getItemByIdLoop : List MenuItem → Int → MenuItem
  | [], _ => MenuItem.mk 0 "Invalid" 0 0
  | item :: rest, id => if item.id = id then item else getItemByIdLoop rest id

/-- Lookup `Menu::getItemById`. -/
def Menu.getItemById (menu : Menu) (id : Int) : MenuItem :=
  getItemByIdLoop menu.menuItems id

/-- Order record (`class Order`). -/
structure Order where
  clientId : Int
  itemId : Int
  prepTime : Int
  priority : Int
deriving DecidableEq, Repr, Inhabited

/-- Comparison `Order::operator<`: `priority > other.priority` (reversed, so that
the max-heap of `std::priority_queue` serves the lowest priority value first). -/
def Order.lt (a other : Order) : Bool :=
  decide (a.priority > other.priority)

/-! ## `std::priority_queue<Order>`: vector + heap algorithms -/

/-- Element access `*(first + i)` on the underlying vector. -/
def at_ (c : List Order) (i : Nat) : Order :=
  c.getD i default

/-- The `while` loop of `std::__push_heap(first, holeIndex, topIndex, value)`:
while the hole is below `topIndex` and its parent compares less than `value`,
the parent moves down into the hole; finally `value` is stored in the hole.
The first argument bounds the number of iterations (`holeIndex` suffices, as
the hole index strictly decreases). -/
def push_heap_loop : Nat → List Order → Nat → Nat → Order → List Order
  | 0, c, holeIndex, _, value => c.set holeIndex value
  | fuel + 1, c, holeIndex, topIndex, value =>
    let parent := (holeIndex - 1) / 2
    if holeIndex > topIndex ∧ (at_ c parent).lt value = true then
      push_heap_loop fuel (c.set holeIndex (at_ c parent)) parent topIndex value
    else
      c.set holeIndex value

/-- Sift-up `std::__push_heap(first, holeIndex, topIndex, value)`. -/
def std_push_heap_at (c : List Order) (holeIndex topIndex : Nat) (value : Order) :
    List Order :=
  push_heap_loop holeIndex c holeIndex topIndex value

/-- Algorithm `std::push_heap(first, last)`: the last element is the new one;
it is sifted up from index `len - 1` towards the root. -/
def std_push_heap (c : List Order) : List Order :=
  std_push_heap_at c (c.length - 1) 0 (at_ c (c.length - 1))

/-- The first `while` loop of `std::__adjust_heap(first, holeIndex, len, value)`:
while the hole has two children, the child that does not compare less than its
sibling (the right one unless `right < left`) moves up into the hole. At the
loop head `secondChild = holeIndex`, so a single index is carried. Returns the
vector and the final hole index. -/
def adjust_heap_loop : Nat → List Order → Nat → Nat → List Order × Nat
  | 0, c, holeIndex, _ => (c, holeIndex)
  | fuel + 1, c, holeIndex, len =>
    if holeIndex < (len - 1) / 2 then
      let secondChild := 2 * (holeIndex + 1)
      let secondChild :=
        if (at_ c secondChild).lt (at_ c (secondChild - 1)) = true then secondChild - 1
        else secondChild
      adjust_heap_loop fuel (c.set holeIndex (at_ c secondChild)) secondChild len
    else
      (c, holeIndex)

/-- The `if` after the loop of `std::__adjust_heap`: when `len` is even and the
hole is the parent of the last element, that only child moves up. -/
def adjust_heap_last (p : List Order × Nat) (len : Nat) : List Order × Nat :=
  if len % 2 = 0 ∧ p.2 = (len - 2) / 2 then
    let secondChild := 2 * (p.2 + 1)
    (p.1.set p.2 (at_ p.1 (secondChild - 1)), secondChild - 1)
  else
    p

/-- Sift-down `std::__adjust_heap(first, holeIndex, len, value)`: the hole
descends to the bottom of the heap `[0, len)`, then `value` is sifted up from
there with `__push_heap` (not above the original hole). -/
def std_adjust_heap (c : List Order) (holeIndex len : Nat) (value : Order) : List Order :=
  let topIndex := holeIndex
  let p := adjust_heap_last (adjust_heap_loop len c holeIndex len) len
  std_push_heap_at p.1 p.2 topIndex value

/-- Algorithm `std::pop_heap(first, last)`: for more than one element, the last
element is saved as `value`, the root is stored in the last slot, and `value`
is re-inserted into the heap `[0, len - 1)` from the root. -/
def std_pop_heap (c : List Order) : List Order :=
  if c.length > 1 then
    let last := c.length - 1
    let value := at_ c last
    std_adjust_heap (c.set last (at_ c 0)) 0 last value
  else
    c

/-- Member `priority_queue::push`: `c.push_back(x); push_heap(c.begin(), c.end())`. -/
def pq_push (c : List Order) (x : Order) : List Order :=
  std_push_heap (c ++ [x])

/-- Member `priority_queue::top`: `c.front()`; undefined (`none`) on an empty queue. -/
def pq_top (c : List Order) : Option Order :=
  c.head?

/-- Member `priority_queue::pop`: `pop_heap(c.begin(), c.end()); c.pop_back()`. -/
def pq_pop (c : List Order) : List Order :=
  (std_pop_heap c).dropLast

/-! ## `OrderQueue`: the semaphore-guarded priority queue -/

/-- Operation `sem_wait` on a counting semaphore value: decrement when positive,
otherwise the caller blocks (`none`). -/
def sem_wait (v : Nat) : Option Nat :=
  if v > 0 then some (v - 1) else none

/-- Operation `sem_post` on a counting semaphore value. (The values stay at most
the capacity, an `int`, so `SEM_VALUE_MAX` is never exceeded.) -/
def sem_post (v : Nat) : Nat :=
  v + 1

/-- State of `class OrderQueue`: the priority queue and the three semaphores. -/
structure OrderQueue where
  orders : List Order
  mutex : Nat
  full : Nat
  empty : Nat
deriving DecidableEq, Repr

namespace OrderQueue

/-- Constructor `OrderQueue(int capacity)`: `mutex = 1`, `full = 0`,
`empty = capacity`, no orders. The capacity is taken non-negative (`sem_init`
rejects the value a negative `int` converts to). -/
def new (capacity : Nat) : OrderQueue :=
  { orders := [], mutex := 1, full := 0, empty := capacity }

/-- Step `sem_wait(&empty)`. -/
def waitEmpty (q : OrderQueue) : Option OrderQueue :=
  (sem_wait q.empty).map fun v => { q with empty := v }

/-- Step `sem_wait(&full)`. -/
def waitFull (q : OrderQueue) : Option OrderQueue :=
  (sem_wait q.full).map fun v => { q with full := v }

/-- Step `sem_wait(&mutex)`. -/
def waitMutex (q : OrderQueue) : Option OrderQueue :=
  (sem_wait q.mutex).map fun v => { q with mutex := v }

/-- Step `sem_post(&mutex)`. -/
def postMutex (q : OrderQueue) : OrderQueue :=
  { q with mutex := sem_post q.mutex }

/-- Step `sem_post(&full)`. -/
def postFull (q : OrderQueue) : OrderQueue :=
  { q with full := sem_post q.full }

/-- Step `sem_post(&empty)`. -/
def postEmpty (q : OrderQueue) : OrderQueue :=
  { q with empty := sem_post q.empty }

/-- Step `orders.push(order)`. -/
def push (q : OrderQueue) (order : Order) : OrderQueue :=
  { q with orders := pq_push q.orders order }

/-- Step `Order order = orders.top(); orders.pop();` (`none`: `top()` on an
empty priority queue, which is undefined). -/
def topPop (q : OrderQueue) : Option (Order × OrderQueue) :=
  match pq_top q.orders with
  | none => none
  | some order => some (order, { q with orders := pq_pop q.orders })

/-- Method `OrderQueue::addOrder` run without interleaving; `none` when the
caller blocks. -/
def addOrder (q : OrderQueue) (order : Order) : Option OrderQueue := do
  let q ← q.waitEmpty
  let q ← q.waitMutex
  let q := q.push order
  let q := q.postMutex
  pure q.postFull

/-- Method `OrderQueue::getOrder` run without interleaving; `none` when the
caller blocks. -/
def getOrder (q : OrderQueue) : Option (Order × OrderQueue) := do
  let q ← q.waitFull
  let q ← q.waitMutex
  let (order, q) ← q.topPop
  let q := q.postMutex
  pure (order, q.postEmpty)

end OrderQueue

/-- A call on the queue: `addOrder(order)` or `getOrder()`. -/
inductive Op where
  | add (order : Order)
  | get
deriving DecidableEq, Repr

/-- Sequential run of a list of calls, each completing before the next one
starts. The result is the final queue and the orders returned by the
`getOrder` calls, in call order; `none` when some call blocks. -/
def OrderQueue.run : OrderQueue → List Op → Option (OrderQueue × List Order)
  | q, [] => some (q, [])
  | q, Op.add order :: ops =>
    match q.addOrder order with
    | none => none
    | some q1 => OrderQueue.run q1 ops
  | q, Op.get :: ops =>
    match q.getOrder with
    | none => none
    | some (order, q1) =>
      match OrderQueue.run q1 ops with
      | none => none
      | some (q2, got) => some (q2, order :: got)

/-- The orders passed to the `addOrder` calls of a list of calls. -/
def addedOrders : List Op → List Order
  | [] => []
  | Op.add order :: ops => order :: addedOrders ops
  | Op.get :: ops => addedOrders ops

/-- The number of `getOrder` calls in a list of calls. -/
def getCount : List Op → Nat
  | [] => 0
  | Op.add _ :: ops => getCount ops
  | Op.get :: ops => getCount ops + 1

/-! ## `Client::placeOrder` -/

/-- Outcome of `Client::placeOrder`: either `orderQueue.addOrder(order)` was
called once with `order` (with the queue it leaves, `none` while it blocks;
the client then sleeps for the eating time and prints "finished eating"), or
the branch printing "chose an invalid menu item" was taken, with no call on
the queue. -/
inductive PlaceOutcome where
  | submitted (order : Order) (result : Option OrderQueue)
  | invalidChoice (queue : OrderQueue)
deriving DecidableEq, Repr

/-- The priority drawn in `placeOrder`: `rand() % 5 + 1`, for the value `r`
returned by `rand()` (non-negative). -/
def randomPriority (r : Nat) : Int :=
  ((r % 5 + 1 : Nat) : Int)

/-- Method `Client::placeOrder` for the client `clientId`, on the item id read
from the input and the value `r` returned by `rand()`. -/
def Client.placeOrder (clientId : Int) (menu : Menu) (orderQueue : OrderQueue)
    (itemId : Int) (r : Nat) : PlaceOutcome :=
  let item := menu.getItemById itemId
  if item.id ≠ 0 then
    let priority := randomPriority r
    let order := Order.mk clientId item.id item.prepTime priority
    PlaceOutcome.submitted order (orderQueue.addOrder order)
  else
    PlaceOutcome.invalidChoice orderQueue

/-! ## Interleaved execution of client and server threads -/

/-- Control point of a thread. A client thread runs `addOrder(order)` once; a
server thread runs `getOrder()` then `processOrder(order)` in a loop
(`Server::run`). Each constructor names the statement the thread executes next. -/
inductive Pc where
  | addWaitEmpty (order : Order)
  | addWaitMutex (order : Order)
  | addPush (order : Order)
  | addPostMutex (order : Order)
  | addPostFull (order : Order)
  | clientDone
  | getWaitFull
  | getWaitMutex
  | getTopPop
  | getPostMutex (order : Order)
  | getPostEmpty (order : Order)
  | processOrder (order : Order)
deriving DecidableEq, Repr

/-- Kind of thread started by `main`: a client with the order it submits, or a
server. -/
inductive Role where
  | client (order : Order)
  | server
deriving DecidableEq, Repr

/-- Entry point of a thread: a client is about to call `addOrder`, a server is
about to call `getOrder`. -/
def Role.start : Role → Pc
  | Role.client order => Pc.addWaitEmpty order
  | Role.server => Pc.getWaitFull

/-- State of the running system: the shared queue, the control point of every
thread, the orders inserted so far (the "placed an order" lines printed
inside `addOrder`), and the orders returned by completed `getOrder` calls. -/
structure Sys where
  queue : OrderQueue
  threads : List Pc
  placed : List Order
  returned : List Order
deriving DecidableEq, Repr

namespace Sys

/-- Initial state: a freshly constructed queue and every thread at its entry. -/
def init (capacity : Nat) (roles : List Role) : Sys :=
  { queue := OrderQueue.new capacity, threads := roles.map Role.start,
    placed := [], returned := [] }

/-- Effect of thread `i`, at control point `pc`, executing its next atomic
step; `none` when the thread cannot move (blocked in `sem_wait`, finished, or
`top()` undefined). -/
def stepPc (s : Sys) (i : Nat) : Pc → Option Sys
  | Pc.addWaitEmpty o =>
    s.queue.waitEmpty.map fun q =>
      { s with queue := q, threads := s.threads.set i (Pc.addWaitMutex o) }
  | Pc.addWaitMutex o =>
    s.queue.waitMutex.map fun q =>
      { s with queue := q, threads := s.threads.set i (Pc.addPush o) }
  | Pc.addPush o =>
    some { s with queue := s.queue.push o, threads := s.threads.set i (Pc.addPostMutex o),
                  placed := o :: s.placed }
  | Pc.addPostMutex o =>
    some { s with queue := s.queue.postMutex, threads := s.threads.set i (Pc.addPostFull o) }
  | Pc.addPostFull _ =>
    some { s with queue := s.queue.postFull, threads := s.threads.set i Pc.clientDone }
  | Pc.clientDone => none
  | Pc.getWaitFull =>
    s.queue.waitFull.map fun q =>
      { s with queue := q, threads := s.threads.set i Pc.getWaitMutex }
  | Pc.getWaitMutex =>
    s.queue.waitMutex.map fun q =>
      { s with queue := q, threads := s.threads.set i Pc.getTopPop }
  | Pc.getTopPop =>
    s.queue.topPop.map fun p =>
      { s with queue := p.2, threads := s.threads.set i (Pc.getPostMutex p.1) }
  | Pc.getPostMutex o =>
    some { s with queue := s.queue.postMutex, threads := s.threads.set i (Pc.getPostEmpty o) }
  | Pc.getPostEmpty o =>
    some { s with queue := s.queue.postEmpty, threads := s.threads.set i (Pc.processOrder o),
                  returned := o :: s.returned }
  | Pc.processOrder _ =>
    some { s with threads := s.threads.set i Pc.getWaitFull }

/-- One atomic step of thread `i`; `none` when there is no such thread or it
cannot move. -/
def step (s : Sys) (i : Nat) : Option Sys :=
  match s.threads[i]? with
  | none => none
  | some pc => s.stepPc i pc

/-- Execution under a schedule (the list of thread indices chosen by the
scheduler); choosing a thread that cannot move leaves the state unchanged. -/
def exec (s : Sys) (schedule : List Nat) : Sys :=
  schedule.foldl (fun s i => (s.step i).getD s) s

end Sys

/-! ## Observations on system states -/

/-- Threads between `sem_wait(&mutex)` and `sem_post(&mutex)`. -/
def Pc.inCritical : Pc → Bool
  | Pc.addPush _ => true
  | Pc.addPostMutex _ => true
  | Pc.getTopPop => true
  | Pc.getPostMutex _ => true
  | _ => false

/-- Threads that took a unit of `empty` or `full` and have not yet posted the
complementary semaphore. -/
def Pc.holdsSlot : Pc → Bool
  | Pc.addWaitMutex _ => true
  | Pc.addPush _ => true
  | Pc.addPostMutex _ => true
  | Pc.addPostFull _ => true
  | Pc.getWaitMutex => true
  | Pc.getTopPop => true
  | Pc.getPostMutex _ => true
  | Pc.getPostEmpty _ => true
  | _ => false

/-- Threads whose order is resident but not counted by `full`: it is pushed and
`full` not yet posted, or `full` is taken and the order not yet popped. -/
def Pc.pendingItem : Pc → Bool
  | Pc.addPostMutex _ => true
  | Pc.addPostFull _ => true
  | Pc.getWaitMutex => true
  | Pc.getTopPop => true
  | _ => false

/-- Client threads that have not completed their `addOrder`. -/
def Pc.adding : Pc → Bool
  | Pc.addWaitEmpty _ => true
  | Pc.addWaitMutex _ => true
  | Pc.addPush _ => true
  | Pc.addPostMutex _ => true
  | Pc.addPostFull _ => true
  | _ => false

/-- Server threads. -/
def Pc.isServer : Pc → Bool
  | Pc.getWaitFull => true
  | Pc.getWaitMutex => true
  | Pc.getTopPop => true
  | Pc.getPostMutex _ => true
  | Pc.getPostEmpty _ => true
  | Pc.processOrder _ => true
  | _ => false

/-- The order a server thread has popped and not yet returned. -/
def Pc.held : Pc → Option Order
  | Pc.getPostMutex o => some o
  | Pc.getPostEmpty o => some o
  | _ => none

/-- The order a client thread has passed to `addOrder` and not yet pushed. -/
def Pc.toPush : Pc → Option Order
  | Pc.addWaitEmpty o => some o
  | Pc.addWaitMutex o => some o
  | Pc.addPush o => some o
  | _ => none

/-- The orders picked out of the threads by `f`, in thread order. -/
def ordersOf (f : Pc → Option Order) (threads : List Pc) : List Order :=
  threads.filterMap f

/-- The orders submitted by the client threads. -/
def clientOrders : List Role → List Order
  | [] => []
  | Role.client o :: rest => o :: clientOrders rest
  | Role.server :: rest => clientOrders rest

/-- Weight of a control point in the termination measure: it drops by one at
each step of the thread, by seven at the client's `sem_post(&full)` (which pays
for one more `getOrder` round), and rises by five at the server's
`sem_wait(&full)`. -/
def Pc.rank : Pc → Nat
  | Pc.addWaitEmpty _ => 11
  | Pc.addWaitMutex _ => 10
  | Pc.addPush _ => 9
  | Pc.addPostMutex _ => 8
  | Pc.addPostFull _ => 7
  | Pc.clientDone => 0
  | Pc.getWaitFull => 0
  | Pc.getWaitMutex => 5
  | Pc.getTopPop => 4
  | Pc.getPostMutex _ => 3
  | Pc.getPostEmpty _ => 2
  | Pc.processOrder _ => 1

/-- Bound on the number of steps left in any run from `s`: the weights of the
threads, plus six for each unit of `full` (one more `getOrder` round). -/
def Sys.measure (s : Sys) : Nat :=
  6 * s.queue.full + (s.threads.map Pc.rank).sum

/-- Thread `i` can take a step. -/
def Sys.enabled (s : Sys) (i : Nat) : Bool :=
  (s.step i).isSome

/-- The state reached from the initial one under a schedule. -/
def reached (capacity : Nat) (roles : List Role) (schedule : List Nat) : Sys :=
  (Sys.init capacity roles).exec schedule

/-! ## Specification predicates -/

/-- Heap order on the slots `[0, len)`: no parent compares less than its child,
that is, each parent's priority value is at most its child's. -/
def IsHeapUpTo (l : List Order) (len : Nat) : Prop :=
  ∀ i, 0 < i → i < len → (at_ l ((i - 1) / 2)).priority ≤ (at_ l i).priority

/-- Heap order on the whole vector. -/
def IsHeap (l : List Order) : Prop :=
  IsHeapUpTo l l.length

/-- Heap order on `[0, len)` around a hole at `h`, whose content is stale:
every slot other than the hole is above its parent, and the children of the
hole are above the parent of the hole. -/
def HeapExcept (l : List Order) (len h : Nat) : Prop :=
  (∀ i, 0 < i → i < len → i ≠ h →
    (at_ l ((i - 1) / 2)).priority ≤ (at_ l i).priority) ∧
  (∀ i, 0 < i → i < len → (i - 1) / 2 = h → 0 < h →
    (at_ l ((h - 1) / 2)).priority ≤ (at_ l i).priority)

/-- The children of the hole `h` are above `v`. -/
def ChildrenAbove (l : List Order) (len h : Nat) (v : Order) : Prop :=
  ∀ i, 0 < i → i < len → (i - 1) / 2 = h → v.priority ≤ (at_ l i).priority

/-- What the descent loop of `__adjust_heap` establishes. -/
structure DescentOk (l : List Order) (h len : Nat) (r : List Order × Nat) : Prop where
  heap : HeapExcept r.1 len r.2
  lt : r.2 < len
  length : r.1.length = l.length
  perm : ∀ v, (r.1.set r.2 v).Perm (l.set h v)
  rest : ∀ j, len ≤ j → at_ r.1 j = at_ l j

/-- Weight 1 for the threads satisfying `p`. -/
def wt (p : Pc → Bool) (pc : Pc) : Nat := (p pc).toNat

/-- Weight 1 for the threads for which `f` picks the order `a`. -/
def wo (f : Pc → Option Order) (a : Order) (pc : Pc) : Nat :=
  if f pc = some a then 1 else 0

/-- Invariant of every reachable state of a system started with capacity `C`
and the threads `roles`. -/
structure Inv (C : Nat) (roles : List Role) (s : Sys) : Prop where
  mutex : s.queue.mutex + (s.threads.map (wt Pc.inCritical)).sum = 1
  slots : s.queue.empty + s.queue.full + (s.threads.map (wt Pc.holdsSlot)).sum = C
  count : s.queue.orders.length = s.queue.full + (s.threads.map (wt Pc.pendingItem)).sum
  heap : IsHeap s.queue.orders
  items : ∀ a, s.returned.count a + (s.threads.map (wo Pc.held a)).sum
    + s.queue.orders.count a = s.placed.count a
  clients : ∀ a, s.placed.count a + (s.threads.map (wo Pc.toPush a)).sum
    = (clientOrders roles).count a
  servers : (s.threads.map (wt Pc.isServer)).sum = roles.count Role.server

/-- Free capacity: `C` minus the resident count is `empty` plus the threads that
hold a slot without a resident order of theirs. -/
def Pc.spare : Pc → Bool
  | Pc.addWaitMutex _ => true
  | Pc.addPush _ => true
  | Pc.getPostMutex _ => true
  | Pc.getPostEmpty _ => true
  | _ => false

/-- Invariant of the queue between calls (no call in progress). -/
structure SeqInv (C : Nat) (q : OrderQueue) : Prop where
  mutex : q.mutex = 1
  full : q.full = q.orders.length
  slots : q.empty + q.full = C
  heap : IsHeap q.orders

/-! ## The heap algorithms keep the heap order and the contents -/

theorem at_eq_getElem (l : List Order) (i : Nat) (h : i < l.length) : at_ l i = l[i] := by
  simp [at_, List.getD_eq_getElem?_getD, h]

theorem at_set_eq (l : List Order) (i : Nat) (x : Order) (h : i < l.length) :
    at_ (l.set i x) i = x := by
  simp [at_, List.getD_eq_getElem?_getD, h]

theorem at_set_ne (l : List Order) (i j : Nat) (x : Order) (h : i ≠ j) :
    at_ (l.set i x) j = at_ l j := by
  simp [at_, List.getD_eq_getElem?_getD, List.getElem?_set_ne h]

/-- Moving the element at `p` into the hole `h` and filling `p` with `v` is a
rearrangement of filling the hole `h` with `v`. -/
theorem hole_move_perm (l : List Order) (h p : Nat) (v : Order) (hh : h < l.length)
    (hp : p < l.length) (hne : p ≠ h) :
    ((l.set h (at_ l p)).set p v).Perm (l.set h v) := by
  rw [List.perm_iff_count]
  intro a
  have hp1 : p < (l.set h (at_ l p)).length := by simpa using hp
  rw [List.count_set _ _ _ _ hp1, List.count_set _ _ _ _ hh, List.count_set _ _ _ _ hh]
  have e1 : (l.set h (at_ l p))[p] = l[p] := by
    rw [List.getElem_set_ne (Ne.symm hne)]
  rw [e1, at_eq_getElem l p hp]
  have b1 : (if l[h] == a then 1 else 0) ≤ l.count a := by
    have := List.boole_getElem_le_countP (fun x => x == a) l h hh
    simpa [List.count_eq_countP] using this
  split_ifs <;> omega

theorem lt_eq_true_iff (a b : Order) : a.lt b = true ↔ b.priority < a.priority := by
  simp [Order.lt]

/-- Filling the hole with a value that fits between its parent and its children
restores the heap order. -/
theorem heap_of_fill (l : List Order) (len h : Nat) (v : Order) (hl : len ≤ l.length)
    (hh : h < len) (he : HeapExcept l len h) (hc : ChildrenAbove l len h v)
    (hp : h = 0 ∨ (at_ l ((h - 1) / 2)).priority ≤ v.priority) :
    IsHeapUpTo (l.set h v) len := by
  intro i hi0 hilen
  by_cases hih : i = h
  · subst hih
    rw [at_set_eq l i v (by omega), at_set_ne l i _ v (by omega)]
    rcases hp with hp | hp
    · omega
    · exact hp
  · rw [at_set_ne l h i v (Ne.symm hih)]
    by_cases hpar : (i - 1) / 2 = h
    · rw [hpar, at_set_eq l h v (by omega)]
      exact hc i hi0 hilen hpar
    · rw [at_set_ne l h _ v (Ne.symm hpar)]
      exact he.1 i hi0 hilen hih

/-- Moving the parent down into the hole keeps the heap order around the hole,
now at the parent's slot. -/
theorem heapExcept_up (l : List Order) (len h : Nat) (hl : len ≤ l.length)
    (hh : h < len) (h0 : 0 < h) (he : HeapExcept l len h) :
    HeapExcept (l.set h (at_ l ((h - 1) / 2))) len ((h - 1) / 2) := by
  have hph : (h - 1) / 2 ≠ h := by omega
  constructor
  · intro i hi0 hilen hip
    by_cases hih : i = h
    · subst hih
      rw [at_set_eq l i _ (by omega), at_set_ne l i _ _ (Ne.symm hph)]
    · rw [at_set_ne l h i _ (Ne.symm hih)]
      by_cases hpar : (i - 1) / 2 = h
      · rw [hpar, at_set_eq l h _ (by omega)]
        exact he.2 i hi0 hilen hpar h0
      · rw [at_set_ne l h _ _ (Ne.symm hpar)]
        exact he.1 i hi0 hilen hih
  · intro i hi0 hilen hpar hp0
    have hpp : (((h - 1) / 2) - 1) / 2 ≠ h := by omega
    rw [at_set_ne l h _ _ (Ne.symm hpp)]
    have hgp : (at_ l ((((h - 1) / 2) - 1) / 2)).priority ≤ (at_ l ((h - 1) / 2)).priority :=
      he.1 ((h - 1) / 2) hp0 (by omega) hph
    by_cases hih : i = h
    · subst hih
      rw [at_set_eq l i _ (by omega)]
      exact hgp
    · rw [at_set_ne l h i _ (Ne.symm hih)]
      have : (at_ l ((i - 1) / 2)).priority ≤ (at_ l i).priority := he.1 i hi0 hilen hih
      rw [hpar] at this
      omega

/-- After the parent moved down, the children of the new hole are above `v`
when the parent was. -/
theorem childrenAbove_up (l : List Order) (len h : Nat) (v : Order) (hl : len ≤ l.length)
    (hh : h < len) (h0 : 0 < h) (he : HeapExcept l len h)
    (hv : v.priority < (at_ l ((h - 1) / 2)).priority) :
    ChildrenAbove (l.set h (at_ l ((h - 1) / 2))) len ((h - 1) / 2) v := by
  intro i hi0 hilen hpar
  by_cases hih : i = h
  · subst hih
    rw [at_set_eq l i _ (by omega)]
    omega
  · rw [at_set_ne l h i _ (Ne.symm hih)]
    have : (at_ l ((i - 1) / 2)).priority ≤ (at_ l i).priority := he.1 i hi0 hilen hih
    rw [hpar] at this
    omega

/-- The sift-up loop restores the heap order. -/
theorem push_heap_loop_heap (fuel : Nat) : ∀ (l : List Order) (len h : Nat) (v : Order),
    h ≤ fuel → len ≤ l.length → h < len → HeapExcept l len h → ChildrenAbove l len h v →
    IsHeapUpTo (push_heap_loop fuel l h 0 v) len := by
  induction fuel with
  | zero =>
    intro l len h v hf hl hh he hc
    simp only [push_heap_loop]
    exact heap_of_fill l len h v hl hh he hc (Or.inl (by omega))
  | succ fuel ih =>
    intro l len h v hf hl hh he hc
    simp only [push_heap_loop]
    split_ifs with hcond
    · obtain ⟨h0, hlt⟩ := hcond
      rw [lt_eq_true_iff] at hlt
      exact ih _ len _ v (by omega) (by simpa using hl) (by omega)
        (heapExcept_up l len h hl hh h0 he) (childrenAbove_up l len h v hl hh h0 he hlt)
    · apply heap_of_fill l len h v hl hh he hc
      rw [lt_eq_true_iff] at hcond
      by_cases h0 : h = 0
      · exact Or.inl h0
      · right
        have : ¬ v.priority < (at_ l ((h - 1) / 2)).priority := fun hx => hcond ⟨by omega, hx⟩
        omega

/-- The sift-up loop keeps the length. -/
theorem push_heap_loop_length (fuel : Nat) : ∀ (l : List Order) (h t : Nat) (v : Order),
    (push_heap_loop fuel l h t v).length = l.length := by
  induction fuel with
  | zero => intro l h t v; simp [push_heap_loop]
  | succ fuel ih =>
    intro l h t v
    simp only [push_heap_loop]
    split_ifs
    · rw [ih]; simp
    · simp

/-- The sift-up loop rearranges the vector with the hole filled by `v`. -/
theorem push_heap_loop_perm (fuel : Nat) : ∀ (l : List Order) (h : Nat) (v : Order),
    h < l.length → (push_heap_loop fuel l h 0 v).Perm (l.set h v) := by
  induction fuel with
  | zero => intro l h v _; simp [push_heap_loop]
  | succ fuel ih =>
    intro l h v hh
    simp only [push_heap_loop]
    split_ifs with hcond
    · obtain ⟨h0, _⟩ := hcond
      have hp : (h - 1) / 2 < l.length := by omega
      refine (ih _ _ v (by simpa using hp)).trans ?_
      exact hole_move_perm l h _ v hh hp (by omega)
    · exact List.Perm.refl _

/-- The sift-up loop leaves the slots after the hole untouched. -/
theorem push_heap_loop_at (fuel : Nat) : ∀ (l : List Order) (h : Nat) (v : Order) (j : Nat),
    h < j → at_ (push_heap_loop fuel l h 0 v) j = at_ l j := by
  induction fuel with
  | zero => intro l h v j hj; simp only [push_heap_loop]; exact at_set_ne l h j v (by omega)
  | succ fuel ih =>
    intro l h v j hj
    simp only [push_heap_loop]
    split_ifs with hcond
    · rw [ih _ _ v j (by omega)]
      exact at_set_ne l h j _ (by omega)
    · exact at_set_ne l h j v (by omega)

/-- With `holeIndex` iterations available the sift-up loop has run to its own
exit: one more iteration changes nothing. -/
theorem push_heap_loop_fuel (fuel : Nat) : ∀ (l : List Order) (h t : Nat) (v : Order),
    h ≤ fuel → push_heap_loop (fuel + 1) l h t v = push_heap_loop fuel l h t v := by
  induction fuel with
  | zero =>
    intro l h t v hf
    have h0 : h = 0 := by omega
    subst h0
    simp [push_heap_loop]
  | succ fuel ih =>
    intro l h t v hf
    rw [push_heap_loop]
    conv_rhs => rw [push_heap_loop]
    split_ifs with hcond
    · exact ih _ _ t v (by omega)
    · rfl

theorem adjust_heap_loop_succ (fuel : Nat) (l : List Order) (h len : Nat) :
    adjust_heap_loop (fuel + 1) l h len =
      if h < (len - 1) / 2 then
        adjust_heap_loop fuel
          (l.set h (at_ l (if (at_ l (2 * (h + 1))).lt (at_ l (2 * (h + 1) - 1)) = true
            then 2 * (h + 1) - 1 else 2 * (h + 1))))
          (if (at_ l (2 * (h + 1))).lt (at_ l (2 * (h + 1) - 1)) = true
            then 2 * (h + 1) - 1 else 2 * (h + 1)) len
      else (l, h) := rfl

/-- With `len` iterations available the descent loop has run to its own exit:
one more iteration changes nothing. -/
theorem adjust_heap_loop_fuel (fuel : Nat) : ∀ (l : List Order) (h len : Nat),
    (len - 1) / 2 ≤ h + fuel →
    adjust_heap_loop (fuel + 1) l h len = adjust_heap_loop fuel l h len := by
  induction fuel with
  | zero =>
    intro l h len hf
    have : ¬ h < (len - 1) / 2 := by omega
    simp [adjust_heap_loop, this]
  | succ fuel ih =>
    intro l h len hf
    rw [adjust_heap_loop_succ (fuel + 1) l h len, adjust_heap_loop_succ fuel l h len]
    by_cases hc : h < (len - 1) / 2
    · rw [if_pos hc, if_pos hc]
      apply ih
      split_ifs <;> omega
    · rw [if_neg hc, if_neg hc]

/-- Moving a child `s` of the hole that is not above its sibling up into the
hole keeps the heap order around the hole, now at `s`. -/
theorem heapExcept_down (l : List Order) (len h s : Nat) (hl : len ≤ l.length)
    (hs0 : 0 < s) (hs : s < len) (hpar : (s - 1) / 2 = h) (he : HeapExcept l len h)
    (hmin : ∀ i, 0 < i → i < len → (i - 1) / 2 = h →
      (at_ l s).priority ≤ (at_ l i).priority) :
    HeapExcept (l.set h (at_ l s)) len s := by
  have hh : h < l.length := by omega
  constructor
  · intro i hi0 hilen his
    by_cases hih : i = h
    · subst hih
      rw [at_set_eq l i _ hh, at_set_ne l i _ _ (by omega)]
      exact he.2 s hs0 hs hpar hi0
    · rw [at_set_ne l h i _ (Ne.symm hih)]
      by_cases hp : (i - 1) / 2 = h
      · rw [hp, at_set_eq l h _ hh]
        exact hmin i hi0 hilen hp
      · rw [at_set_ne l h _ _ (Ne.symm hp)]
        exact he.1 i hi0 hilen hih
  · intro i hi0 hilen hp _
    rw [hpar, at_set_eq l h _ hh, at_set_ne l h i _ (by omega)]
    have := he.1 i hi0 hilen (by omega)
    rw [hp] at this
    exact this

theorem adjust_heap_loop_ok (fuel : Nat) : ∀ (l : List Order) (h len : Nat),
    len ≤ l.length → h < len → HeapExcept l len h →
    DescentOk l h len (adjust_heap_loop fuel l h len) := by
  induction fuel with
  | zero =>
    intro l h len hl hh he
    exact ⟨he, hh, rfl, fun v => List.Perm.refl _, fun j _ => rfl⟩
  | succ fuel ih =>
    intro l h len hl hh he
    simp only [adjust_heap_loop]
    split_ifs with hcond hlt
    · -- the left child moves up
      have hs : 2 * (h + 1) - 1 < len := by omega
      have hmin : ∀ i, 0 < i → i < len → (i - 1) / 2 = h →
          (at_ l (2 * (h + 1) - 1)).priority ≤ (at_ l i).priority := by
        intro i hi0 hilen hp
        rw [lt_eq_true_iff] at hlt
        have hi : i = 2 * (h + 1) - 1 ∨ i = 2 * (h + 1) := by omega
        rcases hi with hi | hi
        · rw [hi]
        · rw [hi]; omega
      have he2 := heapExcept_down l len h _ hl (by omega) hs (by omega) he hmin
      have r := ih (l.set h (at_ l (2 * (h + 1) - 1))) (2 * (h + 1) - 1) len
        (by simpa using hl) hs he2
      refine ⟨r.heap, r.lt, by rw [r.length]; simp, fun v => ?_, fun j hj => ?_⟩
      · exact (r.perm v).trans (hole_move_perm l h _ v (by omega) (by omega) (by omega))
      · rw [r.rest j hj]; exact at_set_ne l h j _ (by omega)
    · -- the right child moves up
      have hs : 2 * (h + 1) < len := by omega
      have hmin : ∀ i, 0 < i → i < len → (i - 1) / 2 = h →
          (at_ l (2 * (h + 1))).priority ≤ (at_ l i).priority := by
        intro i hi0 hilen hp
        rw [lt_eq_true_iff] at hlt
        have hi : i = 2 * (h + 1) - 1 ∨ i = 2 * (h + 1) := by omega
        rcases hi with hi | hi
        · rw [hi]; omega
        · rw [hi]
      have he2 := heapExcept_down l len h _ hl (by omega) hs (by omega) he hmin
      have r := ih (l.set h (at_ l (2 * (h + 1)))) (2 * (h + 1)) len
        (by simpa using hl) hs he2
      refine ⟨r.heap, r.lt, by rw [r.length]; simp, fun v => ?_, fun j hj => ?_⟩
      · exact (r.perm v).trans (hole_move_perm l h _ v (by omega) (by omega) (by omega))
      · rw [r.rest j hj]; exact at_set_ne l h j _ (by omega)
    · exact ⟨he, hh, rfl, fun v => List.Perm.refl _, fun j _ => rfl⟩

/-- With `len` iterations available, the descent loop ends with a hole that has
no two children. -/
theorem adjust_heap_loop_bottom (fuel : Nat) : ∀ (l : List Order) (h len : Nat),
    (len - 1) / 2 ≤ h + fuel → (len - 1) / 2 ≤ (adjust_heap_loop fuel l h len).2 := by
  induction fuel with
  | zero => intro l h len hf; simpa [adjust_heap_loop] using hf
  | succ fuel ih =>
    intro l h len hf
    simp only [adjust_heap_loop]
    split_ifs with hcond hlt
    · exact ih _ _ len (by omega)
    · exact ih _ _ len (by omega)
    · omega

/-- The step after the descent loop keeps its guarantees and leaves a hole
without children. -/
theorem adjust_heap_last_ok (l0 : List Order) (h0 len : Nat) (r : List Order × Nat)
    (hl : len ≤ l0.length) (hr : DescentOk l0 h0 len r) (hb : (len - 1) / 2 ≤ r.2) :
    DescentOk l0 h0 len (adjust_heap_last r len) ∧
      ∀ i, 0 < i → i < len → (i - 1) / 2 ≠ (adjust_heap_last r len).2 := by
  have hlen := hr.length
  have hlt := hr.lt
  simp only [adjust_heap_last]
  split_ifs with hcond
  · obtain ⟨hev, heq⟩ := hcond
    have hs : 2 * (r.2 + 1) - 1 < len := by omega
    have hmin : ∀ i, 0 < i → i < len → (i - 1) / 2 = r.2 →
        (at_ r.1 (2 * (r.2 + 1) - 1)).priority ≤ (at_ r.1 i).priority := by
      intro i hi0 hilen hp
      have hi : i = 2 * (r.2 + 1) - 1 := by omega
      rw [hi]
    have he2 := heapExcept_down r.1 len r.2 _ (by omega) (by omega) hs (by omega) hr.heap hmin
    refine ⟨⟨he2, hs, by simp [hlen], fun v => ?_, fun j hj => ?_⟩, fun i hi0 hilen => ?_⟩
    · exact (hole_move_perm r.1 r.2 _ v (by omega) (by omega) (by omega)).trans (hr.perm v)
    · show at_ (r.1.set r.2 _) j = _
      rw [at_set_ne r.1 r.2 j _ (by omega)]; exact hr.rest j hj
    · show (i - 1) / 2 ≠ 2 * (r.2 + 1) - 1
      omega
  · refine ⟨hr, fun i hi0 hilen => ?_⟩
    omega

/-- Sift-down from the root: `__adjust_heap(first, 0, len, value)` on a vector
that is heap-ordered on `[0, len)` except for the stale root yields a heap on
`[0, len)` that rearranges the vector with the root replaced by `value`, and
leaves the slots from `len` on untouched. -/
theorem std_adjust_heap_ok (l : List Order) (len : Nat) (v : Order) (hl : len ≤ l.length)
    (h0 : 0 < len) (he : HeapExcept l len 0) :
    IsHeapUpTo (std_adjust_heap l 0 len v) len ∧
    (std_adjust_heap l 0 len v).length = l.length ∧
    (std_adjust_heap l 0 len v).Perm (l.set 0 v) ∧
    ∀ j, len ≤ j → at_ (std_adjust_heap l 0 len v) j = at_ l j := by
  have r1 := adjust_heap_loop_ok len l 0 len hl h0 he
  have hb := adjust_heap_loop_bottom len l 0 len (by omega)
  obtain ⟨r2, hno⟩ := adjust_heap_last_ok l 0 len _ hl r1 hb
  simp only [std_adjust_heap, std_push_heap_at]
  generalize adjust_heap_last (adjust_heap_loop len l 0 len) len = p at r2 hno
  have hpl : len ≤ p.1.length := by rw [r2.length]; exact hl
  refine ⟨?_, ?_, ?_, ?_⟩
  · apply push_heap_loop_heap p.2 p.1 len p.2 v (Nat.le_refl _) hpl r2.lt r2.heap
    intro i hi0 hilen hp
    exact absurd hp (hno i hi0 hilen)
  · rw [push_heap_loop_length, r2.length]
  · exact (push_heap_loop_perm p.2 p.1 p.2 v (by have := r2.lt; omega)).trans (r2.perm v)
  · intro j hj
    rw [push_heap_loop_at p.2 p.1 p.2 v j (by have := r2.lt; omega)]
    exact r2.rest j hj

theorem set_at_self (l : List Order) (i : Nat) (h : i < l.length) : l.set i (at_ l i) = l := by
  apply List.ext_getElem (by simp)
  intro j h1 h2
  by_cases hij : i = j
  · subst hij; simp [at_eq_getElem l i h]
  · simp [List.getElem_set_ne hij]

theorem at_dropLast (l : List Order) (i : Nat) (h : i < l.length - 1) :
    at_ l.dropLast i = at_ l i := by
  rw [at_eq_getElem l.dropLast i (by simpa using h), at_eq_getElem l i (by omega)]
  simp

theorem mem_iff_at (l : List Order) (x : Order) : x ∈ l ↔ ∃ i, i < l.length ∧ at_ l i = x := by
  rw [List.mem_iff_getElem]
  constructor
  · rintro ⟨i, h, e⟩; exact ⟨i, h, by rw [at_eq_getElem l i h]; exact e⟩
  · rintro ⟨i, h, e⟩; exact ⟨i, h, by rw [← at_eq_getElem l i h]; exact e⟩

/-- In a heap the root has the least priority value. -/
theorem isHeapUpTo_root_le (l : List Order) (len : Nat) (hh : IsHeapUpTo l len) :
    ∀ i, i < len → (at_ l 0).priority ≤ (at_ l i).priority := by
  intro i
  induction i using Nat.strong_induction_on with
  | _ i ih =>
    intro hi
    by_cases h0 : i = 0
    · subst h0; exact le_refl _
    · have h1 := hh i (by omega) hi
      have h2 := ih ((i - 1) / 2) (by omega) (by omega)
      omega

theorem pq_top_eq (l : List Order) (o : Order) (h : pq_top l = some o) :
    0 < l.length ∧ at_ l 0 = o := by
  cases l with
  | nil => simp [pq_top] at h
  | cons a t =>
    simp [pq_top] at h
    subst h
    exact ⟨by simp, by simp [at_]⟩

/-- Result of `top()` on a heap: a resident order of least priority value. -/
theorem pq_top_min (l : List Order) (o : Order) (hh : IsHeap l) (h : pq_top l = some o) :
    o ∈ l ∧ ∀ x ∈ l, o.priority ≤ x.priority := by
  obtain ⟨hpos, h0⟩ := pq_top_eq l o h
  refine ⟨(mem_iff_at l o).2 ⟨0, hpos, h0⟩, fun x hx => ?_⟩
  obtain ⟨i, hi, e⟩ := (mem_iff_at l x).1 hx
  rw [← h0, ← e]
  exact isHeapUpTo_root_le l l.length hh i hi

theorem pq_top_isSome (l : List Order) (h : l ≠ []) : ∃ o, pq_top l = some o := by
  cases l with
  | nil => exact absurd rfl h
  | cons a t => exact ⟨a, rfl⟩

/-- Effect of `push` on a heap: a heap holding the old orders and the new one. -/
theorem pq_push_ok (l : List Order) (x : Order) (hh : IsHeap l) :
    IsHeap (pq_push l x) ∧ (pq_push l x).Perm (x :: l) := by
  have hlen : (l ++ [x]).length - 1 = l.length := by simp
  have hv : at_ (l ++ [x]) l.length = x := by
    rw [at_eq_getElem _ _ (by simp)]; simp
  have hat : ∀ i, i < l.length → at_ (l ++ [x]) i = at_ l i := by
    intro i hi
    rw [at_eq_getElem _ _ (by simp; omega), at_eq_getElem _ _ hi]
    exact List.getElem_append_left hi
  simp only [pq_push, std_push_heap, std_push_heap_at, hlen, hv]
  constructor
  · have : IsHeapUpTo (push_heap_loop l.length (l ++ [x]) l.length 0 x) (l ++ [x]).length := by
      apply push_heap_loop_heap l.length (l ++ [x]) _ l.length x (Nat.le_refl _)
        (Nat.le_refl _) (by simp)
      · constructor
        · intro i hi0 hilen hne
          have hi : i < l.length := by simp at hilen; omega
          rw [hat i hi, hat _ (by omega)]
          exact hh i hi0 hi
        · intro i hi0 hilen hp _
          simp at hilen; omega
      · intro i hi0 hilen hp
        simp at hilen; omega
    unfold IsHeap
    rw [push_heap_loop_length]
    exact this
  · refine (push_heap_loop_perm l.length (l ++ [x]) l.length x (by simp)).trans ?_
    have : (l ++ [x]).set l.length x = l ++ [x] := by
      have := set_at_self (l ++ [x]) l.length (by simp)
      rw [hv] at this; exact this
    rw [this]
    exact List.perm_append_singleton x l

/-- Effect of `pop` on a non-empty heap: a heap holding the old orders without
the one `top()` returned. -/
theorem pq_pop_ok (l : List Order) (o : Order) (hh : IsHeap l) (ht : pq_top l = some o) :
    IsHeap (pq_pop l) ∧ l.Perm (o :: pq_pop l) := by
  obtain ⟨hpos, h0⟩ := pq_top_eq l o ht
  simp only [pq_pop, std_pop_heap]
  split_ifs with hlen
  · have hl1 : l.length - 1 < l.length := by omega
    have he : HeapExcept (l.set (l.length - 1) (at_ l 0)) (l.length - 1) 0 := by
      constructor
      · intro i hi0 hilen _
        rw [at_set_ne l _ i _ (by omega), at_set_ne l _ _ _ (by omega)]
        exact hh i hi0 (by omega)
      · intro i _ _ _ hc
        omega
    obtain ⟨r1, r2, r3, r4⟩ := std_adjust_heap_ok (l.set (l.length - 1) (at_ l 0))
      (l.length - 1) (at_ l (l.length - 1)) (by simp) (by omega) he
    generalize std_adjust_heap (l.set (l.length - 1) (at_ l 0)) 0 (l.length - 1)
      (at_ l (l.length - 1)) = r at r1 r2 r3 r4
    simp only [List.length_set] at r2
    constructor
    · intro i hi0 hilen
      simp only [List.length_dropLast] at hilen
      rw [at_dropLast r i (by omega), at_dropLast r _ (by omega)]
      exact r1 i hi0 (by omega)
    · have hne : r ≠ [] := by
        intro hr; rw [hr] at r2; simp at r2; omega
      have hlast : r.getLast hne = o := by
        rw [List.getLast_eq_getElem, ← at_eq_getElem r _ (by omega), r2,
          r4 _ (Nat.le_refl _), at_set_eq l _ _ hl1, h0]
      have hr : r = r.dropLast ++ [o] := by
        rw [← hlast]; exact (List.dropLast_concat_getLast hne).symm
      have hp1 : r.Perm l := by
        refine r3.trans ?_
        have := hole_move_perm l (l.length - 1) 0 (at_ l (l.length - 1)) hl1 hpos (by omega)
        rw [set_at_self l _ hl1] at this
        exact this
      have hp2 : r.Perm (o :: r.dropLast) := by
        conv_lhs => rw [hr]
        exact List.perm_append_singleton o r.dropLast
      exact hp1.symm.trans hp2
  · have : l = [o] := by
      cases l with
      | nil => simp at hpos
      | cons a t =>
        simp [pq_top] at ht
        simp at hlen
        simp [ht, hlen]
    subst this
    constructor
    · intro i hi0 hilen; simp at hilen
    · simp

/-! ## Sums of thread weights -/

theorem sum_map_set (w : Pc → Nat) : ∀ (l : List Pc) (i : Nat) (pc b : Pc),
    l[i]? = some pc → ((l.set i b).map w).sum + w pc = (l.map w).sum + w b := by
  intro l
  induction l with
  | nil => intro i pc b h; simp at h
  | cons a t ih =>
    intro i pc b h
    cases i with
    | zero =>
      simp at h
      subst h
      simp only [List.set_cons_zero, List.map_cons, List.sum_cons]; omega
    | succ i =>
      simp at h
      have := ih i pc b h
      simp only [List.set_cons_succ, List.map_cons, List.sum_cons]; omega

theorem le_sum_map (w : Pc → Nat) : ∀ (l : List Pc) (i : Nat) (pc : Pc),
    l[i]? = some pc → w pc ≤ (l.map w).sum := by
  intro l
  induction l with
  | nil => intro i pc h; simp at h
  | cons a t ih =>
    intro i pc h
    cases i with
    | zero => simp at h; subst h; simp
    | succ i => simp at h; have := ih i pc h; simp; omega

theorem two_le_sum_map (w : Pc → Nat) : ∀ (l : List Pc) (i j : Nat) (pi pj : Pc),
    i ≠ j → l[i]? = some pi → l[j]? = some pj → w pi + w pj ≤ (l.map w).sum := by
  intro l
  induction l with
  | nil => intro i j pi pj _ h; simp at h
  | cons a t ih =>
    intro i j pi pj hne hi hj
    cases i with
    | zero =>
      cases j with
      | zero => exact absurd rfl hne
      | succ j =>
        simp at hi hj; subst hi
        have := le_sum_map w t j pj hj
        simp; omega
    | succ i =>
      cases j with
      | zero =>
        simp at hi hj; subst hj
        have := le_sum_map w t i pi hi
        simp; omega
      | succ j =>
        simp at hi hj
        have := ih i j pi pj (by omega) hi hj
        simp; omega

theorem exists_of_sum_pos (w : Pc → Nat) : ∀ (l : List Pc), 0 < (l.map w).sum →
    ∃ (i : Nat) (pc : Pc), l[i]? = some pc ∧ 0 < w pc := by
  intro l
  induction l with
  | nil => intro h; simp at h
  | cons a t ih =>
    intro h
    by_cases ha : 0 < w a
    · exact ⟨0, a, by simp, ha⟩
    · have : 0 < (t.map w).sum := by simp at h; omega
      obtain ⟨i, pc, hi, hp⟩ := ih this
      exact ⟨i + 1, pc, by simpa using hi, hp⟩

theorem countP_eq_sum (p : Pc → Bool) (l : List Pc) : l.countP p = (l.map (wt p)).sum := by
  induction l with
  | nil => simp
  | cons a t ih =>
    rw [List.countP_cons, ih]
    cases h : p a <;> simp [wt, h]
    omega

theorem count_ordersOf (f : Pc → Option Order) (a : Order) (l : List Pc) :
    (ordersOf f l).count a = (l.map (wo f a)).sum := by
  induction l with
  | nil => simp [ordersOf]
  | cons x t ih =>
    unfold ordersOf at ih ⊢
    cases h : f x with
    | none => simp [List.filterMap_cons, h, wo, ih]
    | some o =>
      by_cases hoa : o = a
      · subst hoa; simp [List.filterMap_cons, h, wo, ih]; omega
      · simp [List.filterMap_cons, h, wo, ih, hoa, List.count_cons]

/-! ## The invariant of the interleaved execution -/

theorem step_cases {s s' : Sys} {i : Nat} (h : s.step i = some s') :
    ∃ pc, s.threads[i]? = some pc ∧ s.stepPc i pc = some s' := by
  unfold Sys.step at h
  cases hpc : s.threads[i]? with
  | none => rw [hpc] at h; simp at h
  | some pc => rw [hpc] at h; exact ⟨pc, rfl, h⟩

theorem inv_step {C : Nat} {roles : List Role} {s s' : Sys} {i : Nat}
    (inv : Inv C roles s) (h : s.step i = some s') : Inv C roles s' := by
  obtain ⟨pc, hpc, hs⟩ := step_cases h
  have S := fun (w : Pc → Nat) (b : Pc) => sum_map_set w s.threads i pc b hpc
  have i1 := inv.mutex
  have i2 := inv.slots
  have i3 := inv.count
  have i4 := inv.heap
  have i5 := inv.items
  have i6 := inv.clients
  have i7 := inv.servers
  cases pc with
  | addWaitEmpty o =>
    simp [Sys.stepPc, OrderQueue.waitEmpty, OrderQueue.waitFull, OrderQueue.waitMutex, sem_wait] at hs
    obtain ⟨hg, rfl⟩ := hs
    constructor
    · have e := S (wt Pc.inCritical) (Pc.addWaitMutex o)
      simp [wt, wo, Pc.inCritical, Pc.holdsSlot, Pc.pendingItem, Pc.isServer, Pc.held, Pc.toPush, sem_post, OrderQueue.postMutex, OrderQueue.postFull, OrderQueue.postEmpty, OrderQueue.push] at e ⊢
      omega
    · have e := S (wt Pc.holdsSlot) (Pc.addWaitMutex o)
      simp [wt, wo, Pc.inCritical, Pc.holdsSlot, Pc.pendingItem, Pc.isServer, Pc.held, Pc.toPush, sem_post, OrderQueue.postMutex, OrderQueue.postFull, OrderQueue.postEmpty, OrderQueue.push] at e ⊢
      omega
    · have e := S (wt Pc.pendingItem) (Pc.addWaitMutex o)
      simp [wt, wo, Pc.inCritical, Pc.holdsSlot, Pc.pendingItem, Pc.isServer, Pc.held, Pc.toPush, sem_post, OrderQueue.postMutex, OrderQueue.postFull, OrderQueue.postEmpty, OrderQueue.push] at e ⊢
      omega
    · exact i4
    · intro a
      have e := S (wo Pc.held a) (Pc.addWaitMutex o)
      have f := i5 a
      simp [wt, wo, Pc.inCritical, Pc.holdsSlot, Pc.pendingItem, Pc.isServer, Pc.held, Pc.toPush, sem_post, OrderQueue.postMutex, OrderQueue.postFull, OrderQueue.postEmpty, OrderQueue.push] at e ⊢
      omega
    · intro a
      have e := S (wo Pc.toPush a) (Pc.addWaitMutex o)
      have f := i6 a
      simp [wt, wo, Pc.inCritical, Pc.holdsSlot, Pc.pendingItem, Pc.isServer, Pc.held, Pc.toPush, sem_post, OrderQueue.postMutex, OrderQueue.postFull, OrderQueue.postEmpty, OrderQueue.push] at e ⊢
      omega
    · have e := S (wt Pc.isServer) (Pc.addWaitMutex o)
      simp [wt, wo, Pc.inCritical, Pc.holdsSlot, Pc.pendingItem, Pc.isServer, Pc.held, Pc.toPush, sem_post, OrderQueue.postMutex, OrderQueue.postFull, OrderQueue.postEmpty, OrderQueue.push] at e ⊢
      omega
  | addWaitMutex o =>
    simp [Sys.stepPc, OrderQueue.waitEmpty, OrderQueue.waitFull, OrderQueue.waitMutex, sem_wait] at hs
    obtain ⟨hg, rfl⟩ := hs
    constructor
    · have e := S (wt Pc.inCritical) (Pc.addPush o)
      simp [wt, wo, Pc.inCritical, Pc.holdsSlot, Pc.pendingItem, Pc.isServer, Pc.held, Pc.toPush, sem_post, OrderQueue.postMutex, OrderQueue.postFull, OrderQueue.postEmpty, OrderQueue.push] at e ⊢
      omega
    · have e := S (wt Pc.holdsSlot) (Pc.addPush o)
      simp [wt, wo, Pc.inCritical, Pc.holdsSlot, Pc.pendingItem, Pc.isServer, Pc.held, Pc.toPush, sem_post, OrderQueue.postMutex, OrderQueue.postFull, OrderQueue.postEmpty, OrderQueue.push] at e ⊢
      omega
    · have e := S (wt Pc.pendingItem) (Pc.addPush o)
      simp [wt, wo, Pc.inCritical, Pc.holdsSlot, Pc.pendingItem, Pc.isServer, Pc.held, Pc.toPush, sem_post, OrderQueue.postMutex, OrderQueue.postFull, OrderQueue.postEmpty, OrderQueue.push] at e ⊢
      omega
    · exact i4
    · intro a
      have e := S (wo Pc.held a) (Pc.addPush o)
      have f := i5 a
      simp [wt, wo, Pc.inCritical, Pc.holdsSlot, Pc.pendingItem, Pc.isServer, Pc.held, Pc.toPush, sem_post, OrderQueue.postMutex, OrderQueue.postFull, OrderQueue.postEmpty, OrderQueue.push] at e ⊢
      omega
    · intro a
      have e := S (wo Pc.toPush a) (Pc.addPush o)
      have f := i6 a
      simp [wt, wo, Pc.inCritical, Pc.holdsSlot, Pc.pendingItem, Pc.isServer, Pc.held, Pc.toPush, sem_post, OrderQueue.postMutex, OrderQueue.postFull, OrderQueue.postEmpty, OrderQueue.push] at e ⊢
      omega
    · have e := S (wt Pc.isServer) (Pc.addPush o)
      simp [wt, wo, Pc.inCritical, Pc.holdsSlot, Pc.pendingItem, Pc.isServer, Pc.held, Pc.toPush, sem_post, OrderQueue.postMutex, OrderQueue.postFull, OrderQueue.postEmpty, OrderQueue.push] at e ⊢
      omega
  | addPush o =>
    simp [Sys.stepPc] at hs
    subst hs
    obtain ⟨hheap, hperm⟩ := pq_push_ok s.queue.orders o i4
    have hlen := hperm.length_eq
    simp at hlen
    constructor
    · have e := S (wt Pc.inCritical) (Pc.addPostMutex o)
      simp [wt, wo, Pc.inCritical, Pc.holdsSlot, Pc.pendingItem, Pc.isServer, Pc.held, Pc.toPush, sem_post, OrderQueue.postMutex, OrderQueue.postFull, OrderQueue.postEmpty, OrderQueue.push] at e ⊢
      omega
    · have e := S (wt Pc.holdsSlot) (Pc.addPostMutex o)
      simp [wt, wo, Pc.inCritical, Pc.holdsSlot, Pc.pendingItem, Pc.isServer, Pc.held, Pc.toPush, sem_post, OrderQueue.postMutex, OrderQueue.postFull, OrderQueue.postEmpty, OrderQueue.push] at e ⊢
      omega
    · have e := S (wt Pc.pendingItem) (Pc.addPostMutex o)
      simp [wt, wo, Pc.inCritical, Pc.holdsSlot, Pc.pendingItem, Pc.isServer, Pc.held, Pc.toPush, sem_post, OrderQueue.postMutex, OrderQueue.postFull, OrderQueue.postEmpty, OrderQueue.push] at e ⊢
      omega
    · exact hheap
    · intro a
      have e := S (wo Pc.held a) (Pc.addPostMutex o)
      have f := i5 a
      simp [wt, wo, Pc.inCritical, Pc.holdsSlot, Pc.pendingItem, Pc.isServer, Pc.held, Pc.toPush, sem_post, OrderQueue.postMutex, OrderQueue.postFull, OrderQueue.postEmpty, OrderQueue.push] at e ⊢
      have hc := hperm.count_eq a
      simp only [List.count_cons] at hc ⊢
      omega
    · intro a
      have e := S (wo Pc.toPush a) (Pc.addPostMutex o)
      have f := i6 a
      simp [wt, wo, Pc.inCritical, Pc.holdsSlot, Pc.pendingItem, Pc.isServer, Pc.held, Pc.toPush, sem_post, OrderQueue.postMutex, OrderQueue.postFull, OrderQueue.postEmpty, OrderQueue.push] at e ⊢
      simp only [List.count_cons]
      by_cases hoa : o = a <;> simp [hoa] at e ⊢ <;> omega
    · have e := S (wt Pc.isServer) (Pc.addPostMutex o)
      simp [wt, wo, Pc.inCritical, Pc.holdsSlot, Pc.pendingItem, Pc.isServer, Pc.held, Pc.toPush, sem_post, OrderQueue.postMutex, OrderQueue.postFull, OrderQueue.postEmpty, OrderQueue.push] at e ⊢
      omega
  | addPostMutex o =>
    simp [Sys.stepPc] at hs
    subst hs
    constructor
    · have e := S (wt Pc.inCritical) (Pc.addPostFull o)
      simp [wt, wo, Pc.inCritical, Pc.holdsSlot, Pc.pendingItem, Pc.isServer, Pc.held, Pc.toPush, sem_post, OrderQueue.postMutex, OrderQueue.postFull, OrderQueue.postEmpty, OrderQueue.push] at e ⊢
      omega
    · have e := S (wt Pc.holdsSlot) (Pc.addPostFull o)
      simp [wt, wo, Pc.inCritical, Pc.holdsSlot, Pc.pendingItem, Pc.isServer, Pc.held, Pc.toPush, sem_post, OrderQueue.postMutex, OrderQueue.postFull, OrderQueue.postEmpty, OrderQueue.push] at e ⊢
      omega
    · have e := S (wt Pc.pendingItem) (Pc.addPostFull o)
      simp [wt, wo, Pc.inCritical, Pc.holdsSlot, Pc.pendingItem, Pc.isServer, Pc.held, Pc.toPush, sem_post, OrderQueue.postMutex, OrderQueue.postFull, OrderQueue.postEmpty, OrderQueue.push] at e ⊢
      omega
    · exact i4
    · intro a
      have e := S (wo Pc.held a) (Pc.addPostFull o)
      have f := i5 a
      simp [wt, wo, Pc.inCritical, Pc.holdsSlot, Pc.pendingItem, Pc.isServer, Pc.held, Pc.toPush, sem_post, OrderQueue.postMutex, OrderQueue.postFull, OrderQueue.postEmpty, OrderQueue.push] at e ⊢
      omega
    · intro a
      have e := S (wo Pc.toPush a) (Pc.addPostFull o)
      have f := i6 a
      simp [wt, wo, Pc.inCritical, Pc.holdsSlot, Pc.pendingItem, Pc.isServer, Pc.held, Pc.toPush, sem_post, OrderQueue.postMutex, OrderQueue.postFull, OrderQueue.postEmpty, OrderQueue.push] at e ⊢
      omega
    · have e := S (wt Pc.isServer) (Pc.addPostFull o)
      simp [wt, wo, Pc.inCritical, Pc.holdsSlot, Pc.pendingItem, Pc.isServer, Pc.held, Pc.toPush, sem_post, OrderQueue.postMutex, OrderQueue.postFull, OrderQueue.postEmpty, OrderQueue.push] at e ⊢
      omega
  | addPostFull o =>
    simp [Sys.stepPc] at hs
    subst hs
    constructor
    · have e := S (wt Pc.inCritical) (Pc.clientDone)
      simp [wt, wo, Pc.inCritical, Pc.holdsSlot, Pc.pendingItem, Pc.isServer, Pc.held, Pc.toPush, sem_post, OrderQueue.postMutex, OrderQueue.postFull, OrderQueue.postEmpty, OrderQueue.push] at e ⊢
      omega
    · have e := S (wt Pc.holdsSlot) (Pc.clientDone)
      simp [wt, wo, Pc.inCritical, Pc.holdsSlot, Pc.pendingItem, Pc.isServer, Pc.held, Pc.toPush, sem_post, OrderQueue.postMutex, OrderQueue.postFull, OrderQueue.postEmpty, OrderQueue.push] at e ⊢
      omega
    · have e := S (wt Pc.pendingItem) (Pc.clientDone)
      simp [wt, wo, Pc.inCritical, Pc.holdsSlot, Pc.pendingItem, Pc.isServer, Pc.held, Pc.toPush, sem_post, OrderQueue.postMutex, OrderQueue.postFull, OrderQueue.postEmpty, OrderQueue.push] at e ⊢
      omega
    · exact i4
    · intro a
      have e := S (wo Pc.held a) (Pc.clientDone)
      have f := i5 a
      simp [wt, wo, Pc.inCritical, Pc.holdsSlot, Pc.pendingItem, Pc.isServer, Pc.held, Pc.toPush, sem_post, OrderQueue.postMutex, OrderQueue.postFull, OrderQueue.postEmpty, OrderQueue.push] at e ⊢
      omega
    · intro a
      have e := S (wo Pc.toPush a) (Pc.clientDone)
      have f := i6 a
      simp [wt, wo, Pc.inCritical, Pc.holdsSlot, Pc.pendingItem, Pc.isServer, Pc.held, Pc.toPush, sem_post, OrderQueue.postMutex, OrderQueue.postFull, OrderQueue.postEmpty, OrderQueue.push] at e ⊢
      omega
    · have e := S (wt Pc.isServer) (Pc.clientDone)
      simp [wt, wo, Pc.inCritical, Pc.holdsSlot, Pc.pendingItem, Pc.isServer, Pc.held, Pc.toPush, sem_post, OrderQueue.postMutex, OrderQueue.postFull, OrderQueue.postEmpty, OrderQueue.push] at e ⊢
      omega
  | clientDone =>
    simp [Sys.stepPc] at hs
  | getWaitFull =>
    simp [Sys.stepPc, OrderQueue.waitEmpty, OrderQueue.waitFull, OrderQueue.waitMutex, sem_wait] at hs
    obtain ⟨hg, rfl⟩ := hs
    constructor
    · have e := S (wt Pc.inCritical) (Pc.getWaitMutex)
      simp [wt, wo, Pc.inCritical, Pc.holdsSlot, Pc.pendingItem, Pc.isServer, Pc.held, Pc.toPush, sem_post, OrderQueue.postMutex, OrderQueue.postFull, OrderQueue.postEmpty, OrderQueue.push] at e ⊢
      omega
    · have e := S (wt Pc.holdsSlot) (Pc.getWaitMutex)
      simp [wt, wo, Pc.inCritical, Pc.holdsSlot, Pc.pendingItem, Pc.isServer, Pc.held, Pc.toPush, sem_post, OrderQueue.postMutex, OrderQueue.postFull, OrderQueue.postEmpty, OrderQueue.push] at e ⊢
      omega
    · have e := S (wt Pc.pendingItem) (Pc.getWaitMutex)
      simp [wt, wo, Pc.inCritical, Pc.holdsSlot, Pc.pendingItem, Pc.isServer, Pc.held, Pc.toPush, sem_post, OrderQueue.postMutex, OrderQueue.postFull, OrderQueue.postEmpty, OrderQueue.push] at e ⊢
      omega
    · exact i4
    · intro a
      have e := S (wo Pc.held a) (Pc.getWaitMutex)
      have f := i5 a
      simp [wt, wo, Pc.inCritical, Pc.holdsSlot, Pc.pendingItem, Pc.isServer, Pc.held, Pc.toPush, sem_post, OrderQueue.postMutex, OrderQueue.postFull, OrderQueue.postEmpty, OrderQueue.push] at e ⊢
      omega
    · intro a
      have e := S (wo Pc.toPush a) (Pc.getWaitMutex)
      have f := i6 a
      simp [wt, wo, Pc.inCritical, Pc.holdsSlot, Pc.pendingItem, Pc.isServer, Pc.held, Pc.toPush, sem_post, OrderQueue.postMutex, OrderQueue.postFull, OrderQueue.postEmpty, OrderQueue.push] at e ⊢
      omega
    · have e := S (wt Pc.isServer) (Pc.getWaitMutex)
      simp [wt, wo, Pc.inCritical, Pc.holdsSlot, Pc.pendingItem, Pc.isServer, Pc.held, Pc.toPush, sem_post, OrderQueue.postMutex, OrderQueue.postFull, OrderQueue.postEmpty, OrderQueue.push] at e ⊢
      omega
  | getWaitMutex =>
    simp [Sys.stepPc, OrderQueue.waitEmpty, OrderQueue.waitFull, OrderQueue.waitMutex, sem_wait] at hs
    obtain ⟨hg, rfl⟩ := hs
    constructor
    · have e := S (wt Pc.inCritical) (Pc.getTopPop)
      simp [wt, wo, Pc.inCritical, Pc.holdsSlot, Pc.pendingItem, Pc.isServer, Pc.held, Pc.toPush, sem_post, OrderQueue.postMutex, OrderQueue.postFull, OrderQueue.postEmpty, OrderQueue.push] at e ⊢
      omega
    · have e := S (wt Pc.holdsSlot) (Pc.getTopPop)
      simp [wt, wo, Pc.inCritical, Pc.holdsSlot, Pc.pendingItem, Pc.isServer, Pc.held, Pc.toPush, sem_post, OrderQueue.postMutex, OrderQueue.postFull, OrderQueue.postEmpty, OrderQueue.push] at e ⊢
      omega
    · have e := S (wt Pc.pendingItem) (Pc.getTopPop)
      simp [wt, wo, Pc.inCritical, Pc.holdsSlot, Pc.pendingItem, Pc.isServer, Pc.held, Pc.toPush, sem_post, OrderQueue.postMutex, OrderQueue.postFull, OrderQueue.postEmpty, OrderQueue.push] at e ⊢
      omega
    · exact i4
    · intro a
      have e := S (wo Pc.held a) (Pc.getTopPop)
      have f := i5 a
      simp [wt, wo, Pc.inCritical, Pc.holdsSlot, Pc.pendingItem, Pc.isServer, Pc.held, Pc.toPush, sem_post, OrderQueue.postMutex, OrderQueue.postFull, OrderQueue.postEmpty, OrderQueue.push] at e ⊢
      omega
    · intro a
      have e := S (wo Pc.toPush a) (Pc.getTopPop)
      have f := i6 a
      simp [wt, wo, Pc.inCritical, Pc.holdsSlot, Pc.pendingItem, Pc.isServer, Pc.held, Pc.toPush, sem_post, OrderQueue.postMutex, OrderQueue.postFull, OrderQueue.postEmpty, OrderQueue.push] at e ⊢
      omega
    · have e := S (wt Pc.isServer) (Pc.getTopPop)
      simp [wt, wo, Pc.inCritical, Pc.holdsSlot, Pc.pendingItem, Pc.isServer, Pc.held, Pc.toPush, sem_post, OrderQueue.postMutex, OrderQueue.postFull, OrderQueue.postEmpty, OrderQueue.push] at e ⊢
      omega
  | getTopPop =>
    simp only [Sys.stepPc, OrderQueue.topPop] at hs
    cases htop : pq_top s.queue.orders with
    | none => rw [htop] at hs; simp at hs
    | some o =>
    rw [htop] at hs
    simp at hs
    subst hs
    obtain ⟨hheap, hperm⟩ := pq_pop_ok s.queue.orders o i4 htop
    have hlen := hperm.length_eq
    simp at hlen
    constructor
    · have e := S (wt Pc.inCritical) (Pc.getPostMutex o)
      simp [wt, wo, Pc.inCritical, Pc.holdsSlot, Pc.pendingItem, Pc.isServer, Pc.held, Pc.toPush, sem_post, OrderQueue.postMutex, OrderQueue.postFull, OrderQueue.postEmpty, OrderQueue.push] at e ⊢
      omega
    · have e := S (wt Pc.holdsSlot) (Pc.getPostMutex o)
      simp [wt, wo, Pc.inCritical, Pc.holdsSlot, Pc.pendingItem, Pc.isServer, Pc.held, Pc.toPush, sem_post, OrderQueue.postMutex, OrderQueue.postFull, OrderQueue.postEmpty, OrderQueue.push] at e ⊢
      omega
    · have e := S (wt Pc.pendingItem) (Pc.getPostMutex o)
      simp [wt, wo, Pc.inCritical, Pc.holdsSlot, Pc.pendingItem, Pc.isServer, Pc.held, Pc.toPush, sem_post, OrderQueue.postMutex, OrderQueue.postFull, OrderQueue.postEmpty, OrderQueue.push] at e ⊢
      omega
    · exact hheap
    · intro a
      have e := S (wo Pc.held a) (Pc.getPostMutex o)
      have f := i5 a
      simp [wt, wo, Pc.inCritical, Pc.holdsSlot, Pc.pendingItem, Pc.isServer, Pc.held, Pc.toPush, sem_post, OrderQueue.postMutex, OrderQueue.postFull, OrderQueue.postEmpty, OrderQueue.push] at e ⊢
      have hc := hperm.count_eq a
      simp only [List.count_cons] at hc
      by_cases hoa : o = a <;> simp [hoa] at e hc ⊢ <;> omega
    · intro a
      have e := S (wo Pc.toPush a) (Pc.getPostMutex o)
      have f := i6 a
      simp [wt, wo, Pc.inCritical, Pc.holdsSlot, Pc.pendingItem, Pc.isServer, Pc.held, Pc.toPush, sem_post, OrderQueue.postMutex, OrderQueue.postFull, OrderQueue.postEmpty, OrderQueue.push] at e ⊢
      omega
    · have e := S (wt Pc.isServer) (Pc.getPostMutex o)
      simp [wt, wo, Pc.inCritical, Pc.holdsSlot, Pc.pendingItem, Pc.isServer, Pc.held, Pc.toPush, sem_post, OrderQueue.postMutex, OrderQueue.postFull, OrderQueue.postEmpty, OrderQueue.push] at e ⊢
      omega
  | getPostMutex o =>
    simp [Sys.stepPc] at hs
    subst hs
    constructor
    · have e := S (wt Pc.inCritical) (Pc.getPostEmpty o)
      simp [wt, wo, Pc.inCritical, Pc.holdsSlot, Pc.pendingItem, Pc.isServer, Pc.held, Pc.toPush, sem_post, OrderQueue.postMutex, OrderQueue.postFull, OrderQueue.postEmpty, OrderQueue.push] at e ⊢
      omega
    · have e := S (wt Pc.holdsSlot) (Pc.getPostEmpty o)
      simp [wt, wo, Pc.inCritical, Pc.holdsSlot, Pc.pendingItem, Pc.isServer, Pc.held, Pc.toPush, sem_post, OrderQueue.postMutex, OrderQueue.postFull, OrderQueue.postEmpty, OrderQueue.push] at e ⊢
      omega
    · have e := S (wt Pc.pendingItem) (Pc.getPostEmpty o)
      simp [wt, wo, Pc.inCritical, Pc.holdsSlot, Pc.pendingItem, Pc.isServer, Pc.held, Pc.toPush, sem_post, OrderQueue.postMutex, OrderQueue.postFull, OrderQueue.postEmpty, OrderQueue.push] at e ⊢
      omega
    · exact i4
    · intro a
      have e := S (wo Pc.held a) (Pc.getPostEmpty o)
      have f := i5 a
      simp [wt, wo, Pc.inCritical, Pc.holdsSlot, Pc.pendingItem, Pc.isServer, Pc.held, Pc.toPush, sem_post, OrderQueue.postMutex, OrderQueue.postFull, OrderQueue.postEmpty, OrderQueue.push] at e ⊢
      omega
    · intro a
      have e := S (wo Pc.toPush a) (Pc.getPostEmpty o)
      have f := i6 a
      simp [wt, wo, Pc.inCritical, Pc.holdsSlot, Pc.pendingItem, Pc.isServer, Pc.held, Pc.toPush, sem_post, OrderQueue.postMutex, OrderQueue.postFull, OrderQueue.postEmpty, OrderQueue.push] at e ⊢
      omega
    · have e := S (wt Pc.isServer) (Pc.getPostEmpty o)
      simp [wt, wo, Pc.inCritical, Pc.holdsSlot, Pc.pendingItem, Pc.isServer, Pc.held, Pc.toPush, sem_post, OrderQueue.postMutex, OrderQueue.postFull, OrderQueue.postEmpty, OrderQueue.push] at e ⊢
      omega
  | getPostEmpty o =>
    simp [Sys.stepPc] at hs
    subst hs
    constructor
    · have e := S (wt Pc.inCritical) (Pc.processOrder o)
      simp [wt, wo, Pc.inCritical, Pc.holdsSlot, Pc.pendingItem, Pc.isServer, Pc.held, Pc.toPush, sem_post, OrderQueue.postMutex, OrderQueue.postFull, OrderQueue.postEmpty, OrderQueue.push] at e ⊢
      omega
    · have e := S (wt Pc.holdsSlot) (Pc.processOrder o)
      simp [wt, wo, Pc.inCritical, Pc.holdsSlot, Pc.pendingItem, Pc.isServer, Pc.held, Pc.toPush, sem_post, OrderQueue.postMutex, OrderQueue.postFull, OrderQueue.postEmpty, OrderQueue.push] at e ⊢
      omega
    · have e := S (wt Pc.pendingItem) (Pc.processOrder o)
      simp [wt, wo, Pc.inCritical, Pc.holdsSlot, Pc.pendingItem, Pc.isServer, Pc.held, Pc.toPush, sem_post, OrderQueue.postMutex, OrderQueue.postFull, OrderQueue.postEmpty, OrderQueue.push] at e ⊢
      omega
    · exact i4
    · intro a
      have e := S (wo Pc.held a) (Pc.processOrder o)
      have f := i5 a
      simp [wt, wo, Pc.inCritical, Pc.holdsSlot, Pc.pendingItem, Pc.isServer, Pc.held, Pc.toPush, sem_post, OrderQueue.postMutex, OrderQueue.postFull, OrderQueue.postEmpty, OrderQueue.push] at e ⊢
      simp only [List.count_cons]
      by_cases hoa : o = a <;> simp [hoa] at e ⊢ <;> omega
    · intro a
      have e := S (wo Pc.toPush a) (Pc.processOrder o)
      have f := i6 a
      simp [wt, wo, Pc.inCritical, Pc.holdsSlot, Pc.pendingItem, Pc.isServer, Pc.held, Pc.toPush, sem_post, OrderQueue.postMutex, OrderQueue.postFull, OrderQueue.postEmpty, OrderQueue.push] at e ⊢
      omega
    · have e := S (wt Pc.isServer) (Pc.processOrder o)
      simp [wt, wo, Pc.inCritical, Pc.holdsSlot, Pc.pendingItem, Pc.isServer, Pc.held, Pc.toPush, sem_post, OrderQueue.postMutex, OrderQueue.postFull, OrderQueue.postEmpty, OrderQueue.push] at e ⊢
      omega
  | processOrder o =>
    simp [Sys.stepPc] at hs
    subst hs
    constructor
    · have e := S (wt Pc.inCritical) (Pc.getWaitFull)
      simp [wt, wo, Pc.inCritical, Pc.holdsSlot, Pc.pendingItem, Pc.isServer, Pc.held, Pc.toPush, sem_post, OrderQueue.postMutex, OrderQueue.postFull, OrderQueue.postEmpty, OrderQueue.push] at e ⊢
      omega
    · have e := S (wt Pc.holdsSlot) (Pc.getWaitFull)
      simp [wt, wo, Pc.inCritical, Pc.holdsSlot, Pc.pendingItem, Pc.isServer, Pc.held, Pc.toPush, sem_post, OrderQueue.postMutex, OrderQueue.postFull, OrderQueue.postEmpty, OrderQueue.push] at e ⊢
      omega
    · have e := S (wt Pc.pendingItem) (Pc.getWaitFull)
      simp [wt, wo, Pc.inCritical, Pc.holdsSlot, Pc.pendingItem, Pc.isServer, Pc.held, Pc.toPush, sem_post, OrderQueue.postMutex, OrderQueue.postFull, OrderQueue.postEmpty, OrderQueue.push] at e ⊢
      omega
    · exact i4
    · intro a
      have e := S (wo Pc.held a) (Pc.getWaitFull)
      have f := i5 a
      simp [wt, wo, Pc.inCritical, Pc.holdsSlot, Pc.pendingItem, Pc.isServer, Pc.held, Pc.toPush, sem_post, OrderQueue.postMutex, OrderQueue.postFull, OrderQueue.postEmpty, OrderQueue.push] at e ⊢
      omega
    · intro a
      have e := S (wo Pc.toPush a) (Pc.getWaitFull)
      have f := i6 a
      simp [wt, wo, Pc.inCritical, Pc.holdsSlot, Pc.pendingItem, Pc.isServer, Pc.held, Pc.toPush, sem_post, OrderQueue.postMutex, OrderQueue.postFull, OrderQueue.postEmpty, OrderQueue.push] at e ⊢
      omega
    · have e := S (wt Pc.isServer) (Pc.getWaitFull)
      simp [wt, wo, Pc.inCritical, Pc.holdsSlot, Pc.pendingItem, Pc.isServer, Pc.held, Pc.toPush, sem_post, OrderQueue.postMutex, OrderQueue.postFull, OrderQueue.postEmpty, OrderQueue.push] at e ⊢
      omega

theorem sum_map_start_zero (w : Pc → Nat) (hw : ∀ r : Role, w r.start = 0) :
    ∀ roles : List Role, ((roles.map Role.start).map w).sum = 0 := by
  intro roles
  induction roles with
  | nil => simp
  | cons r t ih => simp only [List.map_cons, List.sum_cons, hw r, ih]

theorem sum_map_add (w w1 w2 : Pc → Nat) (hw : ∀ pc, w pc = w1 pc + w2 pc) :
    ∀ l : List Pc, (l.map w).sum = (l.map w1).sum + (l.map w2).sum := by
  intro l
  induction l with
  | nil => simp
  | cons a t ih => simp [hw a, ih]; omega

theorem inv_init (C : Nat) (roles : List Role) : Inv C roles (Sys.init C roles) := by
  constructor
  · have := sum_map_start_zero (wt Pc.inCritical) (by intro r; cases r <;> rfl) roles
    simp only [Sys.init, OrderQueue.new, this, List.length_nil, List.count_nil, Nat.add_zero]
  · have := sum_map_start_zero (wt Pc.holdsSlot) (by intro r; cases r <;> rfl) roles
    simp only [Sys.init, OrderQueue.new, this, List.length_nil, List.count_nil, Nat.add_zero]
  · have := sum_map_start_zero (wt Pc.pendingItem) (by intro r; cases r <;> rfl) roles
    simp only [Sys.init, OrderQueue.new, this, List.length_nil, List.count_nil, Nat.add_zero]
  · intro i _ hi
    simp [Sys.init, OrderQueue.new] at hi
  · intro a
    have := sum_map_start_zero (wo Pc.held a) (by intro r; cases r <;> rfl) roles
    simp only [Sys.init, OrderQueue.new, this, List.length_nil, List.count_nil, Nat.add_zero]
  · intro a
    simp only [Sys.init, List.count_nil, Nat.zero_add]
    induction roles with
    | nil => simp [clientOrders]
    | cons r t ih =>
      cases r with
      | client o =>
        simp only [List.map_cons, List.sum_cons, clientOrders, List.count_cons, ih]
        by_cases hoa : o = a <;> simp [Role.start, wo, Pc.toPush, hoa]
        omega
      | server => simpa [Role.start, wo, Pc.toPush, clientOrders] using ih
  · simp only [Sys.init]
    induction roles with
    | nil => simp
    | cons r t ih =>
      cases r with
      | client o => simpa [Role.start, wt, Pc.isServer, List.count_cons] using ih
      | server => simp [Role.start, wt, Pc.isServer, List.count_cons] at ih ⊢; omega

theorem inv_exec {C : Nat} {roles : List Role} (schedule : List Nat) :
    ∀ s : Sys, Inv C roles s → Inv C roles (s.exec schedule) := by
  induction schedule with
  | nil => intro s h; exact h
  | cons i t ih =>
    intro s h
    simp only [Sys.exec, List.foldl_cons]
    cases hs : s.step i with
    | none => exact ih s h
    | some s' => exact ih s' (inv_step h hs)

/-- Every state reached from the initial one satisfies the invariant. -/
theorem inv_reachable (C : Nat) (roles : List Role) (schedule : List Nat) :
    Inv C roles ((Sys.init C roles).exec schedule) :=
  inv_exec schedule _ (inv_init C roles)

theorem inv_free {C : Nat} {roles : List Role} {s : Sys} (inv : Inv C roles s) :
    s.queue.orders.length + s.queue.empty + (s.threads.map (wt Pc.spare)).sum = C := by
  have h := sum_map_add (wt Pc.holdsSlot) (wt Pc.pendingItem) (wt Pc.spare)
    (by intro pc; cases pc <;> rfl) s.threads
  have := inv.slots
  have := inv.count
  omega

/-! ## Progress and termination of runs -/

theorem enabled_iff {s : Sys} {i : Nat} {pc : Pc} (hpc : s.threads[i]? = some pc) :
    s.enabled i = (s.stepPc i pc).isSome := by
  simp [Sys.enabled, Sys.step, hpc]

theorem wt_pos {p : Pc → Bool} {pc : Pc} (h : 0 < wt p pc) : p pc = true := by
  unfold wt at h
  cases hp : p pc
  · rw [hp] at h; simp at h
  · rfl

theorem wt_true {p : Pc → Bool} {pc : Pc} (h : p pc = true) : wt p pc = 1 := by
  simp [wt, h]

/-- A thread inside the critical section can always take its next step. -/
theorem enabled_of_critical {C : Nat} {roles : List Role} {s : Sys} (inv : Inv C roles s)
    {j : Nat} {pc : Pc} (hpc : s.threads[j]? = some pc) (hcs : pc.inCritical = true) :
    s.enabled j = true := by
  rw [enabled_iff hpc]
  cases pc with
  | getTopPop =>
    have h1 := le_sum_map (wt Pc.pendingItem) s.threads j _ hpc
    have h2 := inv.count
    simp only [wt, Pc.pendingItem, Bool.toNat_true] at h1
    have hne : s.queue.orders ≠ [] := by
      intro h; rw [h] at h2; simp at h2; omega
    obtain ⟨o, ho⟩ := pq_top_isSome _ hne
    simp [Sys.stepPc, OrderQueue.topPop, ho]
  | _ => first | rfl | simp [Pc.inCritical] at hcs

/-- When a thread waits for the mutex, some thread can take a step. -/
theorem progress_of_waitMutex {C : Nat} {roles : List Role} {s : Sys} (inv : Inv C roles s)
    {j : Nat} {pc : Pc} (hpc : s.threads[j]? = some pc)
    (hw : (∃ o, pc = Pc.addWaitMutex o) ∨ pc = Pc.getWaitMutex) :
    ∃ k, s.enabled k = true := by
  by_cases hm : 0 < s.queue.mutex
  · refine ⟨j, ?_⟩
    rw [enabled_iff hpc]
    rcases hw with ⟨o, rfl⟩ | rfl <;> simp [Sys.stepPc, OrderQueue.waitMutex, sem_wait, hm]
  · have h1 := inv.mutex
    obtain ⟨k, pk, hk, hpos⟩ := exists_of_sum_pos (wt Pc.inCritical) s.threads (by omega)
    exact ⟨k, enabled_of_critical inv hk (wt_pos hpos)⟩

/-- When a thread holds a slot, some thread can take a step. -/
theorem progress_of_slot {C : Nat} {roles : List Role} {s : Sys} (inv : Inv C roles s)
    {j : Nat} {pc : Pc} (hpc : s.threads[j]? = some pc) (hs : pc.holdsSlot = true) :
    ∃ k, s.enabled k = true := by
  cases pc with
  | addWaitMutex o => exact progress_of_waitMutex inv hpc (Or.inl ⟨o, rfl⟩)
  | getWaitMutex => exact progress_of_waitMutex inv hpc (Or.inr rfl)
  | addPush o => exact ⟨j, enabled_of_critical inv hpc rfl⟩
  | addPostMutex o => exact ⟨j, enabled_of_critical inv hpc rfl⟩
  | getTopPop => exact ⟨j, enabled_of_critical inv hpc rfl⟩
  | getPostMutex o => exact ⟨j, enabled_of_critical inv hpc rfl⟩
  | addPostFull o => exact ⟨j, by rw [enabled_iff hpc]; rfl⟩
  | getPostEmpty o => exact ⟨j, by rw [enabled_iff hpc]; rfl⟩
  | _ => simp [Pc.holdsSlot] at hs

/-- With capacity at least 1 and at least one server, a client that has not
completed its `addOrder` is never stuck for good: some thread can take a step. -/
theorem progress {C : Nat} {roles : List Role} {s : Sys} (inv : Inv C roles s)
    (hC : 1 ≤ C) (hserver : Role.server ∈ roles)
    {i : Nat} {pc : Pc} (hpc : s.threads[i]? = some pc) (ha : pc.adding = true) :
    ∃ k, s.enabled k = true := by
  cases pc with
  | addWaitEmpty o =>
    by_cases he : 0 < s.queue.empty
    · refine ⟨i, ?_⟩
      rw [enabled_iff hpc]
      simp [Sys.stepPc, OrderQueue.waitEmpty, sem_wait, he]
    · by_cases hh : 0 < (s.threads.map (wt Pc.holdsSlot)).sum
      · obtain ⟨k, pk, hk, hpos⟩ := exists_of_sum_pos (wt Pc.holdsSlot) s.threads hh
        exact progress_of_slot inv hk (wt_pos hpos)
      · have h2 := inv.slots
        have h7 := inv.servers
        have hcount : 0 < roles.count Role.server := List.count_pos_iff.mpr hserver
        obtain ⟨k, pk, hk, hpos⟩ := exists_of_sum_pos (wt Pc.isServer) s.threads (by omega)
        have hsrv := wt_pos hpos
        cases pk with
        | getWaitFull =>
          refine ⟨k, ?_⟩
          rw [enabled_iff hk]
          have : 0 < s.queue.full := by omega
          simp [Sys.stepPc, OrderQueue.waitFull, sem_wait, this]
        | processOrder o => exact ⟨k, by rw [enabled_iff hk]; rfl⟩
        | getWaitMutex => exact progress_of_slot inv hk rfl
        | getTopPop => exact progress_of_slot inv hk rfl
        | getPostMutex o => exact progress_of_slot inv hk rfl
        | getPostEmpty o => exact progress_of_slot inv hk rfl
        | _ => simp [Pc.isServer] at hsrv
  | addWaitMutex o => exact progress_of_slot inv hpc rfl
  | addPush o => exact progress_of_slot inv hpc rfl
  | addPostMutex o => exact progress_of_slot inv hpc rfl
  | addPostFull o => exact progress_of_slot inv hpc rfl
  | _ => simp [Pc.adding] at ha

/-- Every step strictly decreases the measure, so no run is longer than the
measure of its first state. -/
theorem measure_step {s s' : Sys} {i : Nat} (h : s.step i = some s') :
    s'.measure < s.measure := by
  obtain ⟨pc, hpc, hs⟩ := step_cases h
  have S := fun (b : Pc) => sum_map_set Pc.rank s.threads i pc b hpc
  unfold Sys.measure
  cases pc with
  | addWaitEmpty o =>
    simp [Sys.stepPc, OrderQueue.waitEmpty, sem_wait] at hs
    obtain ⟨hg, rfl⟩ := hs
    have e := S (Pc.addWaitMutex o)
    simp only [Pc.rank] at e ⊢
    omega
  | addWaitMutex o =>
    simp [Sys.stepPc, OrderQueue.waitMutex, sem_wait] at hs
    obtain ⟨hg, rfl⟩ := hs
    have e := S (Pc.addPush o)
    simp only [Pc.rank] at e ⊢
    omega
  | addPush o =>
    simp [Sys.stepPc] at hs
    subst hs
    have e := S (Pc.addPostMutex o)
    simp only [Pc.rank, OrderQueue.push] at e ⊢
    omega
  | addPostMutex o =>
    simp [Sys.stepPc] at hs
    subst hs
    have e := S (Pc.addPostFull o)
    simp only [Pc.rank, OrderQueue.postMutex] at e ⊢
    omega
  | addPostFull o =>
    simp [Sys.stepPc] at hs
    subst hs
    have e := S Pc.clientDone
    simp only [Pc.rank, OrderQueue.postFull, sem_post] at e ⊢
    omega
  | clientDone => simp [Sys.stepPc] at hs
  | getWaitFull =>
    simp [Sys.stepPc, OrderQueue.waitFull, sem_wait] at hs
    obtain ⟨hg, rfl⟩ := hs
    have e := S Pc.getWaitMutex
    simp only [Pc.rank] at e ⊢
    omega
  | getWaitMutex =>
    simp [Sys.stepPc, OrderQueue.waitMutex, sem_wait] at hs
    obtain ⟨hg, rfl⟩ := hs
    have e := S Pc.getTopPop
    simp only [Pc.rank] at e ⊢
    omega
  | getTopPop =>
    simp only [Sys.stepPc, OrderQueue.topPop] at hs
    cases htop : pq_top s.queue.orders with
    | none => rw [htop] at hs; simp at hs
    | some o =>
      rw [htop] at hs
      simp at hs
      subst hs
      have e := S (Pc.getPostMutex o)
      simp only [Pc.rank] at e ⊢
      omega
  | getPostMutex o =>
    simp [Sys.stepPc] at hs
    subst hs
    have e := S (Pc.getPostEmpty o)
    simp only [Pc.rank, OrderQueue.postMutex] at e ⊢
    omega
  | getPostEmpty o =>
    simp [Sys.stepPc] at hs
    subst hs
    have e := S (Pc.processOrder o)
    simp only [Pc.rank, OrderQueue.postEmpty] at e ⊢
    omega
  | processOrder o =>
    simp [Sys.stepPc] at hs
    subst hs
    have e := S Pc.getWaitFull
    simp only [Pc.rank] at e ⊢
    omega

/-- Every run can be continued to a state in which no thread can move. -/
theorem exists_terminal : ∀ (n : Nat) (s : Sys), s.measure ≤ n →
    ∃ more : List Nat, ∀ j, (s.exec more).enabled j = false := by
  intro n
  induction n with
  | zero =>
    intro s hn
    refine ⟨[], fun j => ?_⟩
    cases hstep : s.step j with
    | none => simp [Sys.exec, Sys.enabled, hstep]
    | some s1 => have := measure_step hstep; omega
  | succ n ih =>
    intro s hn
    by_cases hall : ∀ j, s.enabled j = false
    · exact ⟨[], hall⟩
    · push_neg at hall
      obtain ⟨k, hk⟩ := hall
      cases hstep : s.step k with
      | none => simp [Sys.enabled, hstep] at hk
      | some s1 =>
        have hm := measure_step hstep
        obtain ⟨more, hmore⟩ := ih s1 (by omega)
        refine ⟨k :: more, ?_⟩
        simpa [Sys.exec, hstep] using hmore

/-- A state in which no thread can move, with capacity at least 1 and at least
one server: every client has completed `addOrder`, the queue is empty, and the
orders returned are exactly the clients' orders. -/
theorem stuck_drained {C : Nat} {roles : List Role} {s : Sys} (inv : Inv C roles s)
    (hC : 1 ≤ C) (hserver : Role.server ∈ roles) (hstuck : ∀ j, s.enabled j = false) :
    (∀ pc ∈ s.threads, pc.adding = false) ∧ s.queue.orders = [] ∧
      s.returned.Perm (clientOrders roles) := by
  have hnone : ∀ k, ¬ s.enabled k = true := by
    intro k hk
    rw [hstuck k] at hk
    exact Bool.false_ne_true hk
  have hdone : ∀ pc ∈ s.threads, pc.adding = false := by
    intro pc hmem
    by_contra hadd
    obtain ⟨i, hi⟩ := List.mem_iff_getElem?.mp hmem
    obtain ⟨k, hk⟩ := progress inv hC hserver hi (by simpa using hadd)
    exact hnone k hk
  have hslot : (s.threads.map (wt Pc.holdsSlot)).sum = 0 := by
    by_contra hne
    obtain ⟨k, pk, hk, hpos⟩ := exists_of_sum_pos (wt Pc.holdsSlot) s.threads (by omega)
    obtain ⟨j, hj⟩ := progress_of_slot inv hk (wt_pos hpos)
    exact hnone j hj
  have hpend : (s.threads.map (wt Pc.pendingItem)).sum = 0 := by
    have h := sum_map_add (wt Pc.holdsSlot) (wt Pc.pendingItem) (wt Pc.spare)
      (by intro pc; cases pc <;> rfl) s.threads
    omega
  have hfull : s.queue.full = 0 := by
    by_contra hne
    have h7 := inv.servers
    have hcount : 0 < roles.count Role.server := List.count_pos_iff.mpr hserver
    obtain ⟨k, pk, hk, hpos⟩ := exists_of_sum_pos (wt Pc.isServer) s.threads (by omega)
    have hsrv := wt_pos hpos
    cases pk with
    | getWaitFull =>
      apply hnone k
      rw [enabled_iff hk]
      have : 0 < s.queue.full := by omega
      simp [Sys.stepPc, OrderQueue.waitFull, sem_wait, this]
    | processOrder o => exact hnone k (by rw [enabled_iff hk]; rfl)
    | getWaitMutex =>
      obtain ⟨j, hj⟩ := progress_of_slot inv hk rfl
      exact hnone j hj
    | getTopPop =>
      obtain ⟨j, hj⟩ := progress_of_slot inv hk rfl
      exact hnone j hj
    | getPostMutex o =>
      obtain ⟨j, hj⟩ := progress_of_slot inv hk rfl
      exact hnone j hj
    | getPostEmpty o =>
      obtain ⟨j, hj⟩ := progress_of_slot inv hk rfl
      exact hnone j hj
    | _ => simp [Pc.isServer] at hsrv
  have hempty : s.queue.orders = [] := by
    have := inv.count
    exact List.length_eq_zero.mp (by omega)
  refine ⟨hdone, hempty, ?_⟩
  rw [List.perm_iff_count]
  intro a
  have h5 := inv.items a
  have h6 := inv.clients a
  have hheld : (s.threads.map (wo Pc.held a)).sum = 0 := by
    by_contra hne
    obtain ⟨k, pk, hk, hpos⟩ := exists_of_sum_pos (wo Pc.held a) s.threads (by omega)
    cases pk with
    | getPostMutex o => exact hnone k (by rw [enabled_iff hk]; rfl)
    | getPostEmpty o => exact hnone k (by rw [enabled_iff hk]; rfl)
    | _ => simp [wo, Pc.held] at hpos
  have hpush : (s.threads.map (wo Pc.toPush a)).sum = 0 := by
    by_contra hne
    obtain ⟨k, pk, hk, hpos⟩ := exists_of_sum_pos (wo Pc.toPush a) s.threads (by omega)
    have hmem : pk ∈ s.threads := List.mem_iff_getElem?.mpr ⟨k, hk⟩
    have hd := hdone pk hmem
    cases pk with
    | addWaitEmpty o => simp [Pc.adding] at hd
    | addWaitMutex o => simp [Pc.adding] at hd
    | addPush o => simp [Pc.adding] at hd
    | _ => simp [wo, Pc.toPush] at hpos
  rw [hempty] at h5
  simp only [List.count_nil] at h5
  omega

/-! ## Sequential use of the queue -/

theorem seqInv_new (C : Nat) : SeqInv C (OrderQueue.new C) := by
  constructor
  · rfl
  · rfl
  · simp [OrderQueue.new]
  · intro i _ hi
    simp [OrderQueue.new] at hi

theorem addOrder_eq (q : OrderQueue) (o : Order) :
    q.addOrder o =
      if 0 < q.empty ∧ 0 < q.mutex then
        some { orders := pq_push q.orders o, mutex := q.mutex - 1 + 1, full := q.full + 1,
               empty := q.empty - 1 }
      else none := by
  by_cases he : 0 < q.empty <;> by_cases hm : 0 < q.mutex <;>
    simp [OrderQueue.addOrder, OrderQueue.waitEmpty, OrderQueue.waitMutex, OrderQueue.push,
      OrderQueue.postMutex, OrderQueue.postFull, sem_wait, sem_post, he, hm]

theorem getOrder_eq (q : OrderQueue) :
    q.getOrder =
      if 0 < q.full ∧ 0 < q.mutex then
        (pq_top q.orders).map fun o =>
          (o, { orders := pq_pop q.orders, mutex := q.mutex - 1 + 1, full := q.full - 1,
                empty := q.empty + 1 })
      else none := by
  by_cases he : 0 < q.full <;> by_cases hm : 0 < q.mutex <;>
    cases ht : pq_top q.orders <;>
    simp [OrderQueue.getOrder, OrderQueue.waitFull, OrderQueue.waitMutex, OrderQueue.topPop,
      OrderQueue.postMutex, OrderQueue.postEmpty, sem_wait, sem_post, he, hm, ht]

/-- A completed `addOrder` found room, keeps the invariant and adds exactly the
order passed. -/
theorem addOrder_inv {C : Nat} {q q' : OrderQueue} {o : Order} (inv : SeqInv C q)
    (h : q.addOrder o = some q') :
    SeqInv C q' ∧ q'.orders.Perm (o :: q.orders) ∧ q.orders.length < C := by
  rw [addOrder_eq] at h
  split_ifs at h with hg
  simp at h
  subst h
  obtain ⟨hheap, hperm⟩ := pq_push_ok q.orders o inv.heap
  have hlen := hperm.length_eq
  simp at hlen
  have h1 := inv.mutex
  have h2 := inv.full
  have h3 := inv.slots
  refine ⟨⟨?_, ?_, ?_, hheap⟩, hperm, ?_⟩
  · simp; omega
  · simp; omega
  · simp; omega
  · omega

/-- With room left, `addOrder` completes. -/
theorem addOrder_some {C : Nat} {q : OrderQueue} (o : Order) (inv : SeqInv C q)
    (hroom : q.orders.length < C) : ∃ q', q.addOrder o = some q' := by
  rw [addOrder_eq]
  have h1 := inv.mutex
  have h2 := inv.full
  have h3 := inv.slots
  rw [if_pos ⟨by omega, by omega⟩]
  exact ⟨_, rfl⟩

/-- A completed `getOrder` returned the result of `top()`, keeps the invariant
and removes exactly the order returned. -/
theorem getOrder_inv {C : Nat} {q q' : OrderQueue} {o : Order} (inv : SeqInv C q)
    (h : q.getOrder = some (o, q')) :
    SeqInv C q' ∧ pq_top q.orders = some o ∧ q.orders.Perm (o :: q'.orders) := by
  rw [getOrder_eq] at h
  split_ifs at h with hg
  cases ht : pq_top q.orders with
  | none => rw [ht] at h; simp at h
  | some o1 =>
    rw [ht] at h
    simp at h
    obtain ⟨rfl, rfl⟩ := h
    obtain ⟨hheap, hperm⟩ := pq_pop_ok q.orders o1 inv.heap ht
    have hlen := hperm.length_eq
    simp at hlen
    have h1 := inv.mutex
    have h2 := inv.full
    have h3 := inv.slots
    refine ⟨⟨?_, ?_, ?_, hheap⟩, rfl, hperm⟩
    · simp; omega
    · simp; omega
    · simp; omega

/-- On a non-empty queue, `getOrder` completes. -/
theorem getOrder_some {C : Nat} {q : OrderQueue} (inv : SeqInv C q) (hne : q.orders ≠ []) :
    ∃ o q', q.getOrder = some (o, q') := by
  rw [getOrder_eq]
  have h1 := inv.mutex
  have h2 := inv.full
  have hpos : 0 < q.orders.length := List.length_pos.mpr hne
  rw [if_pos ⟨by omega, by omega⟩]
  obtain ⟨o, ho⟩ := pq_top_isSome _ hne
  rw [ho]
  exact ⟨o, _, rfl⟩

/-- A completed sequential run keeps the invariant, and the orders returned
together with the resident ones are the orders added together with the ones
resident at the start. -/
theorem run_inv {C : Nat} : ∀ (ops : List Op) (q q' : OrderQueue) (got : List Order),
    SeqInv C q → OrderQueue.run q ops = some (q', got) →
    SeqInv C q' ∧ (got ++ q'.orders).Perm (addedOrders ops ++ q.orders) ∧
      got.length = getCount ops := by
  intro ops
  induction ops with
  | nil =>
    intro q q' got inv h
    simp [OrderQueue.run] at h
    obtain ⟨rfl, rfl⟩ := h
    exact ⟨inv, by simp [addedOrders], rfl⟩
  | cons op ops ih =>
    intro q q' got inv h
    cases op with
    | add o =>
      simp only [OrderQueue.run] at h
      cases ha : q.addOrder o with
      | none => rw [ha] at h; simp at h
      | some q1 =>
        rw [ha] at h
        obtain ⟨inv1, hp1, _⟩ := addOrder_inv inv ha
        obtain ⟨inv2, hp2, hl2⟩ := ih q1 q' got inv1 h
        refine ⟨inv2, ?_, by simpa [getCount] using hl2⟩
        refine hp2.trans ?_
        simp only [addedOrders, List.cons_append]
        exact (List.Perm.append_left _ hp1).trans List.perm_middle
    | get =>
      simp only [OrderQueue.run] at h
      cases hg : q.getOrder with
      | none => rw [hg] at h; simp at h
      | some p =>
        obtain ⟨o, q1⟩ := p
        rw [hg] at h
        dsimp only at h
        cases hr : OrderQueue.run q1 ops with
        | none => rw [hr] at h; simp at h
        | some p2 =>
          obtain ⟨q2, got2⟩ := p2
          rw [hr] at h
          simp at h
          obtain ⟨rfl, rfl⟩ := h
          obtain ⟨inv1, _, hp1⟩ := getOrder_inv inv hg
          obtain ⟨inv2, hp2, hl2⟩ := ih q1 q2 got2 inv1 hr
          refine ⟨inv2, ?_, by simp [getCount, hl2]⟩
          simp only [addedOrders, List.cons_append]
          refine (List.Perm.cons o hp2).trans ?_
          exact List.perm_middle.symm.trans (List.Perm.append_left _ hp1.symm)

theorem run_append : ∀ (ops1 ops2 : List Op) (q q1 q2 : OrderQueue) (g1 g2 : List Order),
    OrderQueue.run q ops1 = some (q1, g1) → OrderQueue.run q1 ops2 = some (q2, g2) →
    OrderQueue.run q (ops1 ++ ops2) = some (q2, g1 ++ g2) := by
  intro ops1
  induction ops1 with
  | nil =>
    intro ops2 q q1 q2 g1 g2 h1 h2
    simp [OrderQueue.run] at h1
    obtain ⟨rfl, rfl⟩ := h1
    simpa using h2
  | cons op ops ih =>
    intro ops2 q q1 q2 g1 g2 h1 h2
    cases op with
    | add o =>
      simp only [OrderQueue.run, List.cons_append] at h1 ⊢
      cases ha : q.addOrder o with
      | none => rw [ha] at h1; simp at h1
      | some qa =>
        rw [ha] at h1
        simp only
        exact ih ops2 qa q1 q2 g1 g2 h1 h2
    | get =>
      simp only [OrderQueue.run, List.cons_append] at h1 ⊢
      cases hg : q.getOrder with
      | none => rw [hg] at h1; simp at h1
      | some p =>
        obtain ⟨o, qa⟩ := p
        rw [hg] at h1
        dsimp only at h1 ⊢
        cases hr : OrderQueue.run qa ops with
        | none => rw [hr] at h1; simp at h1
        | some p2 =>
          obtain ⟨qb, gb⟩ := p2
          rw [hr] at h1
          simp at h1
          obtain ⟨rfl, rfl⟩ := h1
          have e := ih ops2 qa qb q2 gb g2 hr h2
          simp only [List.append_eq, e, List.cons_append]

/-- While there is room, a batch of `addOrder` calls completes. -/
theorem run_adds {C : Nat} : ∀ (os : List Order) (q : OrderQueue), SeqInv C q →
    q.orders.length + os.length ≤ C → ∃ q', OrderQueue.run q (os.map Op.add) = some (q', []) := by
  intro os
  induction os with
  | nil => intro q _ _; exact ⟨q, rfl⟩
  | cons o os ih =>
    intro q inv hroom
    simp only [List.length_cons] at hroom
    obtain ⟨q1, h1⟩ := addOrder_some o inv (by omega)
    obtain ⟨inv1, hp1, _⟩ := addOrder_inv inv h1
    have hl := hp1.length_eq
    simp only [List.length_cons] at hl
    obtain ⟨q2, h2⟩ := ih q1 inv1 (by omega)
    exact ⟨q2, by simp only [List.map_cons, OrderQueue.run, h1, h2]⟩

/-- Draining a queue of `n` resident orders with `n` `getOrder` calls returns
them all, in non-decreasing order of priority value. -/
theorem run_gets {C : Nat} : ∀ (n : Nat) (q : OrderQueue), SeqInv C q → q.orders.length = n →
    ∃ q' got, OrderQueue.run q (List.replicate n Op.get) = some (q', got) ∧
      got.Pairwise (fun a b => a.priority ≤ b.priority) ∧ got.Perm q.orders := by
  intro n
  induction n with
  | zero =>
    intro q _ hlen
    refine ⟨q, [], rfl, List.Pairwise.nil, ?_⟩
    rw [List.length_eq_zero.mp hlen]
  | succ n ih =>
    intro q inv hlen
    have hne : q.orders ≠ [] := by
      intro h; rw [h] at hlen; simp at hlen
    obtain ⟨o, q1, hg⟩ := getOrder_some inv hne
    obtain ⟨inv1, htop, hp1⟩ := getOrder_inv inv hg
    have hl := hp1.length_eq
    simp only [List.length_cons] at hl
    obtain ⟨q2, got, hr, hsorted, hp2⟩ := ih q1 inv1 (by omega)
    refine ⟨q2, o :: got, ?_, ?_, ?_⟩
    · simp only [List.replicate_succ, OrderQueue.run, hg, hr]
    · refine List.Pairwise.cons (fun x hx => ?_) hsorted
      have hx1 : x ∈ q.orders := hp1.symm.subset (List.mem_cons_of_mem _ (hp2.subset hx))
      exact (pq_top_min q.orders o inv.heap htop).2 x hx1
    · exact (List.Perm.cons o hp2).trans hp1.symm

/-! ## The claims -/

theorem inv_reached (C : Nat) (roles : List Role) (schedule : List Nat) :
    Inv C roles (reached C roles schedule) :=
  inv_reachable C roles schedule

/-- C1: in every queue state reached by completed calls from the constructor
and holding at least one order, `getOrder` returns; the order returned is
resident and its priority value is at most that of every resident order, also
of those that remain after the removal. When only `addOrder` calls were made
before, that priority is the minimum of the priorities added. The same holds
for `top()`/`pop()` in every reachable state of the interleaved execution. -/
theorem getOrder_returns_min :
    (∀ (C : Nat) (ops : List Op) (q : OrderQueue) (got : List Order),
      OrderQueue.run (OrderQueue.new C) ops = some (q, got) → q.orders ≠ [] →
      ∃ o q1, q.getOrder = some (o, q1) ∧ o ∈ q.orders ∧
        (∀ x ∈ q.orders, o.priority ≤ x.priority) ∧
        (∀ x ∈ q1.orders, o.priority ≤ x.priority) ∧
        (getCount ops = 0 → o.priority ∈ (addedOrders ops).map Order.priority ∧
          ∀ p ∈ (addedOrders ops).map Order.priority, o.priority ≤ p)) ∧
    (∀ (C : Nat) (roles : List Role) (schedule : List Nat) (i : Nat),
      (reached C roles schedule).threads[i]? = some Pc.getTopPop →
      ∃ o q1, (reached C roles schedule).queue.topPop = some (o, q1) ∧
        o ∈ (reached C roles schedule).queue.orders ∧
        (∀ x ∈ (reached C roles schedule).queue.orders, o.priority ≤ x.priority) ∧
        (∀ x ∈ q1.orders, o.priority ≤ x.priority)) := by
  constructor
  · intro C ops q got hrun hne
    obtain ⟨inv, hperm, hlen⟩ := run_inv ops _ q got (seqInv_new C) hrun
    obtain ⟨o, q1, hg⟩ := getOrder_some inv hne
    obtain ⟨_, htop, hp1⟩ := getOrder_inv inv hg
    obtain ⟨hmem, hmin⟩ := pq_top_min q.orders o inv.heap htop
    refine ⟨o, q1, hg, hmem, hmin, fun x hx => ?_, fun hcount => ?_⟩
    · exact hmin x (hp1.symm.subset (List.mem_cons_of_mem _ hx))
    · have hgot : got = [] := List.length_eq_zero.mp (by omega)
      rw [hgot] at hperm
      simp only [OrderQueue.new, List.nil_append, List.append_nil] at hperm
      constructor
      · exact List.mem_map_of_mem _ (hperm.subset hmem)
      · intro p hp
        obtain ⟨x, hx, rfl⟩ := List.mem_map.mp hp
        exact hmin x (hperm.symm.subset hx)
  · intro C roles schedule i hi
    have inv := inv_reached C roles schedule
    have h1 := le_sum_map (wt Pc.pendingItem) _ i _ hi
    have h2 := inv.count
    simp only [wt, Pc.pendingItem, Bool.toNat_true] at h1
    have hne2 : (reached C roles schedule).queue.orders ≠ [] := by
      intro h; rw [h] at h2; simp at h2; omega
    obtain ⟨o, ho⟩ := pq_top_isSome _ hne2
    obtain ⟨hmem, hmin⟩ := pq_top_min _ o inv.heap ho
    obtain ⟨_, hp⟩ := pq_pop_ok _ o inv.heap ho
    refine ⟨o, _, by rw [OrderQueue.topPop, ho], hmem, hmin, fun x hx => ?_⟩
    exact hmin x (hp.symm.subset (List.mem_cons_of_mem _ hx))

/-- Witness for C1: capacity 2, orders of priority 3 and 1 added. -/
theorem getOrder_returns_min_witness :
    OrderQueue.run (OrderQueue.new 2) [Op.add ⟨1, 7, 4, 3⟩, Op.add ⟨2, 8, 5, 1⟩]
        = some (⟨[⟨2, 8, 5, 1⟩, ⟨1, 7, 4, 3⟩], 1, 2, 0⟩, []) ∧
    ∃ o q1, (OrderQueue.mk [⟨2, 8, 5, 1⟩, ⟨1, 7, 4, 3⟩] 1 2 0).getOrder = some (o, q1) ∧
      o ∈ [(⟨2, 8, 5, 1⟩ : Order), ⟨1, 7, 4, 3⟩] ∧
      (∀ x ∈ [(⟨2, 8, 5, 1⟩ : Order), ⟨1, 7, 4, 3⟩], o.priority ≤ x.priority) ∧
      (∀ x ∈ q1.orders, o.priority ≤ x.priority) ∧
      (getCount [Op.add ⟨1, 7, 4, 3⟩, Op.add ⟨2, 8, 5, 1⟩] = 0 →
        o.priority ∈ (addedOrders [Op.add ⟨1, 7, 4, 3⟩, Op.add ⟨2, 8, 5, 1⟩]).map Order.priority ∧
        ∀ p ∈ (addedOrders [Op.add ⟨1, 7, 4, 3⟩, Op.add ⟨2, 8, 5, 1⟩]).map Order.priority,
          o.priority ≤ p) :=
  ⟨by decide,
    getOrder_returns_min.1 2 [Op.add ⟨1, 7, 4, 3⟩, Op.add ⟨2, 8, 5, 1⟩]
      ⟨[⟨2, 8, 5, 1⟩, ⟨1, 7, 4, 3⟩], 1, 2, 0⟩ [] (by decide) (by decide)⟩

/-- C2: in every state reachable by interleaving the atomic steps of `addOrder`
and `getOrder` of any number of threads, from the constructor state of
capacity `C`, the number of resident orders is between 0 and `C`. -/
theorem capacity_invariant (C : Nat) (roles : List Role) (schedule : List Nat) :
    0 ≤ (reached C roles schedule).queue.orders.length ∧
    (reached C roles schedule).queue.orders.length ≤ C := by
  have := inv_free (inv_reached C roles schedule)
  omega

/-- C3: after any completed sequence of `addOrder` and `getOrder` calls on a
fresh queue, the orders returned together with the resident ones are, as a
multiset of unchanged records, the orders added; once as many `getOrder` as
`addOrder` calls have completed, the orders returned are the orders added. In
every reachable state of the interleaved execution, the orders returned or held
by a server together with the resident ones are the orders inserted, and the
orders inserted together with those still to be pushed are the clients' orders;
when the run has come to rest (capacity at least 1, at least one server), the
orders returned are exactly the clients' orders. -/
theorem no_loss_no_duplication :
    (∀ (C : Nat) (ops : List Op) (q : OrderQueue) (got : List Order),
      OrderQueue.run (OrderQueue.new C) ops = some (q, got) →
      (got ++ q.orders).Perm (addedOrders ops) ∧
      (getCount ops = (addedOrders ops).length → got.Perm (addedOrders ops))) ∧
    (∀ (C : Nat) (roles : List Role) (schedule : List Nat),
      ((reached C roles schedule).returned ++ ordersOf Pc.held (reached C roles schedule).threads
          ++ (reached C roles schedule).queue.orders).Perm (reached C roles schedule).placed ∧
      ((reached C roles schedule).placed
          ++ ordersOf Pc.toPush (reached C roles schedule).threads).Perm (clientOrders roles)) ∧
    (∀ (C : Nat) (roles : List Role) (schedule : List Nat), 1 ≤ C → Role.server ∈ roles →
      (∀ j, (reached C roles schedule).enabled j = false) →
      (reached C roles schedule).returned.Perm (clientOrders roles)) := by
  refine ⟨?_, ?_, ?_⟩
  · intro C ops q got hrun
    obtain ⟨inv, hperm, hlen⟩ := run_inv ops _ q got (seqInv_new C) hrun
    simp only [OrderQueue.new, List.append_nil] at hperm
    refine ⟨hperm, fun hcount => ?_⟩
    have hl := hperm.length_eq
    simp only [List.length_append] at hl
    have : q.orders = [] := List.length_eq_zero.mp (by omega)
    rw [this, List.append_nil] at hperm
    exact hperm
  · intro C roles schedule
    have inv2 := inv_reached C roles schedule
    constructor
    · rw [List.perm_iff_count]
      intro a
      have := inv2.items a
      simp only [List.count_append, count_ordersOf]
      omega
    · rw [List.perm_iff_count]
      intro a
      have := inv2.clients a
      simp only [List.count_append, count_ordersOf]
      omega
  · intro C roles schedule hC hserver hstuck
    exact (stuck_drained (inv_reached C roles schedule) hC hserver hstuck).2.2

/-- Witness for C3: capacity 2, two orders added, one returned. -/
theorem no_loss_no_duplication_witness :
    OrderQueue.run (OrderQueue.new 2) [Op.add ⟨1, 7, 4, 3⟩, Op.add ⟨2, 8, 5, 1⟩, Op.get]
        = some (⟨[⟨1, 7, 4, 3⟩], 1, 1, 1⟩, [⟨2, 8, 5, 1⟩]) ∧
    ([(⟨2, 8, 5, 1⟩ : Order)] ++ (OrderQueue.mk [⟨1, 7, 4, 3⟩] 1 1 1).orders).Perm
      (addedOrders [Op.add ⟨1, 7, 4, 3⟩, Op.add ⟨2, 8, 5, 1⟩, Op.get]) :=
  ⟨by decide,
    (no_loss_no_duplication.1 2 [Op.add ⟨1, 7, 4, 3⟩, Op.add ⟨2, 8, 5, 1⟩, Op.get]
      ⟨[⟨1, 7, 4, 3⟩], 1, 1, 1⟩ [⟨2, 8, 5, 1⟩] (by decide)).1⟩

/-- C4: in every reachable state of the interleaved execution, an `addOrder`
gets past `sem_wait(&empty)` only when fewer than `C` orders are resident (with
`C` resident it blocks), and executes `orders.push` only then; a `getOrder`
gets past `sem_wait(&full)` only when an order is resident (with none it
blocks), and executes `orders.top()`/`orders.pop()` only then. With capacity 1,
one server and one client submitting `X`: the server cannot move at first,
whatever it returns is `X` and was inserted before, and after the client's
`addOrder` the server's `getOrder` returns `X`. -/
theorem blocking_correct :
    (∀ (C : Nat) (roles : List Role) (schedule : List Nat) (i : Nat) (o : Order),
      (reached C roles schedule).threads[i]? = some (Pc.addWaitEmpty o) →
      ((reached C roles schedule).enabled i = true →
        (reached C roles schedule).queue.orders.length < C) ∧
      ((reached C roles schedule).queue.orders.length = C →
        (reached C roles schedule).step i = none)) ∧
    (∀ (C : Nat) (roles : List Role) (schedule : List Nat) (i : Nat) (o : Order),
      (reached C roles schedule).threads[i]? = some (Pc.addPush o) →
      (reached C roles schedule).queue.orders.length < C) ∧
    (∀ (C : Nat) (roles : List Role) (schedule : List Nat) (i : Nat),
      (reached C roles schedule).threads[i]? = some Pc.getWaitFull →
      ((reached C roles schedule).enabled i = true →
        1 ≤ (reached C roles schedule).queue.orders.length) ∧
      ((reached C roles schedule).queue.orders.length = 0 →
        (reached C roles schedule).step i = none)) ∧
    (∀ (C : Nat) (roles : List Role) (schedule : List Nat) (i : Nat),
      (reached C roles schedule).threads[i]? = some Pc.getTopPop →
      1 ≤ (reached C roles schedule).queue.orders.length ∧
      pq_top (reached C roles schedule).queue.orders ≠ none) ∧
    (∀ X : Order,
      (Sys.init 1 [Role.server, Role.client X]).step 0 = none ∧
      (∀ schedule : List Nat, ∀ a ∈ (reached 1 [Role.server, Role.client X] schedule).returned,
        a = X ∧ X ∈ (reached 1 [Role.server, Role.client X] schedule).placed) ∧
      (reached 1 [Role.server, Role.client X] [1, 1, 1, 1, 1, 0, 0, 0, 0, 0]).returned = [X]) := by
  refine ⟨?_, ?_, ?_, ?_, ?_⟩
  · intro C roles schedule i o hi
    have inv := inv_reached C roles schedule
    have hfree := inv_free inv
    have hen := enabled_iff hi
    simp only [Sys.stepPc, OrderQueue.waitEmpty, sem_wait, Option.isSome_map] at hen
    constructor
    · intro h
      rw [hen] at h
      have : 0 < (reached C roles schedule).queue.empty := by
        by_contra hc
        rw [if_neg hc] at h
        simp at h
      omega
    · intro hfull
      have he : ¬ 0 < (reached C roles schedule).queue.empty := by omega
      simp [Sys.step, hi, Sys.stepPc, OrderQueue.waitEmpty, sem_wait, he]
  · intro C roles schedule i o hi
    have inv := inv_reached C roles schedule
    have hfree := inv_free inv
    have h1 := le_sum_map (wt Pc.spare) _ i _ hi
    simp only [wt, Pc.spare, Bool.toNat_true] at h1
    omega
  · intro C roles schedule i hi
    have inv := inv_reached C roles schedule
    have hcount := inv.count
    have hen := enabled_iff hi
    simp only [Sys.stepPc, OrderQueue.waitFull, sem_wait, Option.isSome_map] at hen
    constructor
    · intro h
      rw [hen] at h
      have : 0 < (reached C roles schedule).queue.full := by
        by_contra hc
        rw [if_neg hc] at h
        simp at h
      omega
    · intro hzero
      have he : ¬ 0 < (reached C roles schedule).queue.full := by omega
      simp [Sys.step, hi, Sys.stepPc, OrderQueue.waitFull, sem_wait, he]
  · intro C roles schedule i hi
    have inv := inv_reached C roles schedule
    have hcount := inv.count
    have h1 := le_sum_map (wt Pc.pendingItem) _ i _ hi
    simp only [wt, Pc.pendingItem, Bool.toNat_true] at h1
    have hlen : 1 ≤ (reached C roles schedule).queue.orders.length := by omega
    refine ⟨hlen, ?_⟩
    have hne : (reached C roles schedule).queue.orders ≠ [] := by
      intro h; rw [h] at hlen; simp at hlen
    obtain ⟨o, ho⟩ := pq_top_isSome _ hne
    rw [ho]; simp
  · intro X
    refine ⟨rfl, ?_, ?_⟩
    swap
    · simp [reached, Sys.exec, Sys.step, Sys.stepPc, Sys.init, Role.start, OrderQueue.new,
        OrderQueue.waitEmpty, OrderQueue.waitMutex, OrderQueue.waitFull, OrderQueue.push,
        OrderQueue.postMutex, OrderQueue.postFull, OrderQueue.postEmpty, OrderQueue.topPop,
        sem_wait, sem_post, pq_push, pq_top, pq_pop, std_push_heap, std_push_heap_at,
        push_heap_loop, std_pop_heap, at_]
    intro schedule a ha
    have inv := inv_reached 1 [Role.server, Role.client X] schedule
    have h5 := inv.items a
    have h6 := inv.clients a
    have hpos : 0 < (reached 1 [Role.server, Role.client X] schedule).returned.count a :=
      List.count_pos_iff.mpr ha
    have hplaced : 0 < (reached 1 [Role.server, Role.client X] schedule).placed.count a := by
      omega
    have hX : 0 < [X].count a := by
      simp only [clientOrders] at h6
      omega
    have hax : a = X := by
      have := List.count_pos_iff.mp hX
      simpa using this
    subst hax
    exact ⟨rfl, List.count_pos_iff.mp hplaced⟩

/-- Witness for C4: capacity 1 with one client and one server; the client is
about to push into the empty queue, then the queue is full. -/
theorem blocking_correct_witness :
    (reached 1 [Role.server, Role.client ⟨1, 7, 4, 5⟩] [1, 1]).threads[1]?
        = some (Pc.addPush ⟨1, 7, 4, 5⟩) ∧
    (reached 1 [Role.server, Role.client ⟨1, 7, 4, 5⟩] [1, 1]).queue.orders.length < 1 :=
  ⟨by decide,
    blocking_correct.2.1 1 [Role.server, Role.client ⟨1, 7, 4, 5⟩] [1, 1] 1 ⟨1, 7, 4, 5⟩
      (by decide)⟩

/-- C5: in every reachable state of the interleaved execution, the value of the
mutex semaphore plus the number of threads between `sem_wait(&mutex)` and
`sem_post(&mutex)` is exactly 1, so at most one thread is inside a critical
section (`orders.push`, `orders.top`/`orders.pop`). -/
theorem mutual_exclusion (C : Nat) (roles : List Role) (schedule : List Nat) :
    (reached C roles schedule).queue.mutex
        + (reached C roles schedule).threads.countP Pc.inCritical = 1 ∧
    ∀ (i j : Nat) (pi pj : Pc),
      (reached C roles schedule).threads[i]? = some pi →
      (reached C roles schedule).threads[j]? = some pj →
      pi.inCritical = true → pj.inCritical = true → i = j := by
  have inv := inv_reached C roles schedule
  have hm := inv.mutex
  constructor
  · rw [countP_eq_sum]; exact hm
  · intro i j pi pj hi hj hci hcj
    by_contra hne
    have := two_le_sum_map (wt Pc.inCritical) _ i j pi pj hne hi hj
    rw [wt_true hci, wt_true hcj] at this
    omega

/-- C6: with capacity at least 1 and at least one server (and any number of
clients, each calling `addOrder` once), in every reachable state in which some
client has not completed its `addOrder`, some thread has an enabled step: no
circular wait. Moreover every step strictly decreases a natural-number measure,
so every run is finite; a state in which no thread can move has every client
done, the queue empty and all the clients' orders returned; and every reachable
state can be continued to such a state. -/
theorem deadlock_free (C : Nat) (roles : List Role) (schedule : List Nat)
    (hC : 1 ≤ C) (hserver : Role.server ∈ roles) :
    ((∃ (i : Nat) (pc : Pc), (reached C roles schedule).threads[i]? = some pc ∧
        pc.adding = true) →
      ∃ j, (reached C roles schedule).enabled j = true) ∧
    (∀ (more : List Nat) (j : Nat) (s1 : Sys),
      ((reached C roles schedule).exec more).step j = some s1 →
      s1.measure < ((reached C roles schedule).exec more).measure) ∧
    (∀ more : List Nat,
      (∀ j, ((reached C roles schedule).exec more).enabled j = false) →
      (∀ pc ∈ ((reached C roles schedule).exec more).threads, pc.adding = false) ∧
      ((reached C roles schedule).exec more).queue.orders = [] ∧
      ((reached C roles schedule).exec more).returned.Perm (clientOrders roles)) ∧
    (∃ more : List Nat, ∀ j, ((reached C roles schedule).exec more).enabled j = false) := by
  have inv := inv_reached C roles schedule
  refine ⟨?_, ?_, ?_, ?_⟩
  · rintro ⟨i, pc, hi, hadd⟩
    exact progress inv hC hserver hi hadd
  · intro more j s1 h
    exact measure_step h
  · intro more hstuck
    exact stuck_drained (inv_exec more _ inv) hC hserver hstuck
  · exact exists_terminal _ _ (Nat.le_refl _)

/-- Witness for C6: capacity 1, one server, two clients, after the first client
has taken the only slot. -/
theorem deadlock_free_witness :
    1 ≤ 1 ∧ Role.server ∈ [Role.server, Role.client ⟨1, 7, 4, 5⟩, Role.client ⟨2, 8, 4, 2⟩] ∧
    ((∃ (i : Nat) (pc : Pc),
        (reached 1 [Role.server, Role.client ⟨1, 7, 4, 5⟩, Role.client ⟨2, 8, 4, 2⟩]
          [1]).threads[i]? = some pc ∧ pc.adding = true) →
      ∃ j, (reached 1 [Role.server, Role.client ⟨1, 7, 4, 5⟩, Role.client ⟨2, 8, 4, 2⟩]
          [1]).enabled j = true) :=
  ⟨by decide, by decide,
    (deadlock_free 1 [Role.server, Role.client ⟨1, 7, 4, 5⟩, Role.client ⟨2, 8, 4, 2⟩] [1]
      (by decide) (by decide)).1⟩

theorem getItemByIdLoop_miss : ∀ (items : List MenuItem) (id : Int),
    (∀ item ∈ items, item.id ≠ id) → getItemByIdLoop items id = MenuItem.mk 0 "Invalid" 0 0 := by
  intro items
  induction items with
  | nil => intro id _; rfl
  | cons item rest ih =>
    intro id h
    have h1 : item.id ≠ id := h item (List.mem_cons_self _ _)
    simp only [getItemByIdLoop, if_neg h1]
    exact ih id (fun x hx => h x (List.mem_cons_of_mem _ hx))

theorem getItemByIdLoop_hit : ∀ (items : List MenuItem) (id : Int),
    (∃ item ∈ items, item.id = id) →
    ∃ item, items.find? (fun x => decide (x.id = id)) = some item ∧
      getItemByIdLoop items id = item ∧ item.id = id := by
  intro items
  induction items with
  | nil => intro id h; obtain ⟨_, hm, _⟩ := h; simp at hm
  | cons a rest ih =>
    intro id h
    by_cases ha : a.id = id
    · exact ⟨a, by simp [List.find?_cons, ha], by simp [getItemByIdLoop, ha], ha⟩
    · obtain ⟨x, hx, hxid⟩ := h
      have hx1 : x ∈ rest := by
        rcases List.mem_cons.mp hx with rfl | h1
        · exact absurd hxid ha
        · exact h1
      obtain ⟨item, h1, h2, h3⟩ := ih id ⟨x, hx1, hxid⟩
      exact ⟨item, by simp [List.find?_cons, ha, h1], by simp [getItemByIdLoop, ha, h2], h3⟩

/-- C7: when no menu entry has the requested id, `placeOrder` takes the branch
reporting the invalid choice, makes no `addOrder` call and leaves the order
queue unchanged. -/
theorem placeOrder_invalid (clientId : Int) (menu : Menu) (orderQueue : OrderQueue)
    (itemId : Int) (r : Nat) (hmiss : ∀ item ∈ menu.menuItems, item.id ≠ itemId) :
    Client.placeOrder clientId menu orderQueue itemId r
      = PlaceOutcome.invalidChoice orderQueue := by
  have hitem : menu.getItemById itemId = MenuItem.mk 0 "Invalid" 0 0 :=
    getItemByIdLoop_miss menu.menuItems itemId hmiss
  unfold Client.placeOrder
  rw [hitem]
  exact if_neg (fun h => h rfl)

/-- Witness for C7: a one-entry menu and an id that is not on it. -/
theorem placeOrder_invalid_witness :
    (∀ item ∈ (Menu.mk [⟨1, "Tea", 2, 3⟩]).menuItems, item.id ≠ 7) ∧
    Client.placeOrder 4 (Menu.mk [⟨1, "Tea", 2, 3⟩]) (OrderQueue.new 2) 7 11
      = PlaceOutcome.invalidChoice (OrderQueue.new 2) :=
  ⟨by simp, placeOrder_invalid 4 (Menu.mk [⟨1, "Tea", 2, 3⟩]) (OrderQueue.new 2) 7 11 (by simp)⟩

/-- For every menu and every requested item id other than 0 that matches some
menu entry, `placeOrder` makes exactly one `addOrder` call, with an order
carrying the client's own id, the requested item id, the preparation time of
the first menu entry with that id, and the priority `rand() % 5 + 1`. -/
theorem placeOrder_submits (clientId : Int) (menu : Menu) (orderQueue : OrderQueue)
    (itemId : Int) (r : Nat) (hne : itemId ≠ 0)
    (hhit : ∃ item ∈ menu.menuItems, item.id = itemId) :
    ∃ item, menu.menuItems.find? (fun x => decide (x.id = itemId)) = some item ∧
      Client.placeOrder clientId menu orderQueue itemId r
        = PlaceOutcome.submitted ⟨clientId, itemId, item.prepTime, randomPriority r⟩
            (orderQueue.addOrder ⟨clientId, itemId, item.prepTime, randomPriority r⟩) := by
  obtain ⟨item, hfind, hget, hid⟩ := getItemByIdLoop_hit menu.menuItems itemId hhit
  refine ⟨item, hfind, ?_⟩
  have hid0 : item.id ≠ 0 := by rw [hid]; exact hne
  simp only [Client.placeOrder, Menu.getItemById, hget, hid]
  rw [if_pos hne]

/-- Instance of `placeOrder_submits`: the second of two entries with the
requested id is ignored. -/
theorem placeOrder_submits_example :
    (3 : Int) ≠ 0 ∧
    (∃ item ∈ (Menu.mk [⟨1, "Tea", 2, 3⟩, ⟨3, "Soup", 6, 9⟩, ⟨3, "Stew", 8, 9⟩]).menuItems,
      item.id = 3) ∧
    ∃ item, (Menu.mk [⟨1, "Tea", 2, 3⟩, ⟨3, "Soup", 6, 9⟩, ⟨3, "Stew", 8, 9⟩]).menuItems.find?
        (fun x => decide (x.id = 3)) = some item ∧
      Client.placeOrder 4 (Menu.mk [⟨1, "Tea", 2, 3⟩, ⟨3, "Soup", 6, 9⟩, ⟨3, "Stew", 8, 9⟩])
          (OrderQueue.new 2) 3 11
        = PlaceOutcome.submitted ⟨4, 3, item.prepTime, randomPriority 11⟩
            ((OrderQueue.new 2).addOrder ⟨4, 3, item.prepTime, randomPriority 11⟩) :=
  ⟨by decide, ⟨⟨3, "Soup", 6, 9⟩, by simp, rfl⟩,
    placeOrder_submits 4 (Menu.mk [⟨1, "Tea", 2, 3⟩, ⟨3, "Soup", 6, 9⟩, ⟨3, "Stew", 8, 9⟩])
      (OrderQueue.new 2) 3 11 (by decide) ⟨⟨3, "Soup", 6, 9⟩, by simp, rfl⟩⟩

/-- C8: whenever `placeOrder` submits (the requested id is not 0 and is on the
menu), for every value `r` returned by `rand()`, `0 ≤ r ≤ RAND_MAX`, the order
it passes to `addOrder` has priority `r % 5 + 1`, which lies in `1..5`; every
value of `1..5` is the priority of the order submitted for some such `r`; on a
fresh queue of capacity at least 1 that order becomes resident with this
priority; and no order submitted by `placeOrder`, on any menu and id, has
another priority. -/
theorem priority_range (RAND_MAX : Nat) (hmax : 4 ≤ RAND_MAX) (clientId : Int) (menu : Menu)
    (orderQueue : OrderQueue) (itemId : Int) (hne : itemId ≠ 0)
    (hhit : ∃ item ∈ menu.menuItems, item.id = itemId) :
    (∀ r : Nat, r ≤ RAND_MAX →
      ∃ order, Client.placeOrder clientId menu orderQueue itemId r
          = PlaceOutcome.submitted order (orderQueue.addOrder order) ∧
        order.priority = ((r % 5 + 1 : Nat) : Int) ∧
        1 ≤ order.priority ∧ order.priority ≤ 5) ∧
    (∀ k : Int, 1 ≤ k → k ≤ 5 →
      ∃ r : Nat, r ≤ RAND_MAX ∧
        ∃ order, Client.placeOrder clientId menu orderQueue itemId r
            = PlaceOutcome.submitted order (orderQueue.addOrder order) ∧
          order.priority = k) ∧
    (∀ (C : Nat) (r : Nat), 1 ≤ C →
      ∃ order q1, Client.placeOrder clientId menu (OrderQueue.new C) itemId r
          = PlaceOutcome.submitted order (some q1) ∧
        q1.orders = [order] ∧ order.priority = ((r % 5 + 1 : Nat) : Int)) ∧
    (∀ (client2 : Int) (menu2 : Menu) (queue2 : OrderQueue) (item2 : Int) (r : Nat)
      (order : Order) (result : Option OrderQueue),
      Client.placeOrder client2 menu2 queue2 item2 r = PlaceOutcome.submitted order result →
      order.priority = ((r % 5 + 1 : Nat) : Int) ∧ 1 ≤ order.priority ∧ order.priority ≤ 5) := by
  obtain ⟨item, _, hget, hid⟩ := getItemByIdLoop_hit menu.menuItems itemId hhit
  have hsub : ∀ (q : OrderQueue) (r : Nat), Client.placeOrder clientId menu q itemId r
      = PlaceOutcome.submitted ⟨clientId, itemId, item.prepTime, ((r % 5 + 1 : Nat) : Int)⟩
          (q.addOrder ⟨clientId, itemId, item.prepTime, ((r % 5 + 1 : Nat) : Int)⟩) := by
    intro q r
    simp only [Client.placeOrder, Menu.getItemById, hget, hid, randomPriority]
    rw [if_pos hne]
  refine ⟨?_, ?_, ?_, ?_⟩
  · intro r _
    refine ⟨_, hsub orderQueue r, rfl, ?_, ?_⟩
    · show (1 : Int) ≤ ((r % 5 + 1 : Nat) : Int)
      omega
    · show ((r % 5 + 1 : Nat) : Int) ≤ 5
      omega
  · intro k h1 h5
    refine ⟨(k - 1).toNat, by omega, _, hsub orderQueue (k - 1).toNat, ?_⟩
    show (((k - 1).toNat % 5 + 1 : Nat) : Int) = k
    omega
  · intro C r hC
    obtain ⟨q1, hq1⟩ := addOrder_some
      (⟨clientId, itemId, item.prepTime, ((r % 5 + 1 : Nat) : Int)⟩ : Order) (seqInv_new C)
      (by simpa [OrderQueue.new] using hC)
    obtain ⟨_, hperm, _⟩ := addOrder_inv (seqInv_new C) hq1
    refine ⟨_, q1, by rw [hsub, hq1], ?_, rfl⟩
    simp only [OrderQueue.new] at hperm
    exact List.perm_singleton.mp hperm
  · intro client2 menu2 queue2 item2 r order result h
    unfold Client.placeOrder at h
    simp only at h
    split_ifs at h with hid2
    simp only [PlaceOutcome.submitted.injEq] at h
    obtain ⟨rfl, _⟩ := h
    dsimp only [randomPriority]
    omega

/-- Witness for C8: the least `RAND_MAX` the C standard allows, a three-entry
menu and a requested id that is on it; each priority of `1..5` is submitted. -/
theorem priority_range_witness :
    4 ≤ 32767 ∧ (3 : Int) ≠ 0 ∧
    (∃ item ∈ (Menu.mk [⟨1, "Tea", 2, 3⟩, ⟨3, "Soup", 6, 9⟩, ⟨3, "Stew", 8, 9⟩]).menuItems,
      item.id = 3) ∧
    (∀ k : Int, 1 ≤ k → k ≤ 5 →
      ∃ r : Nat, r ≤ 32767 ∧
        ∃ order, Client.placeOrder 4
            (Menu.mk [⟨1, "Tea", 2, 3⟩, ⟨3, "Soup", 6, 9⟩, ⟨3, "Stew", 8, 9⟩])
            (OrderQueue.new 2) 3 r
            = PlaceOutcome.submitted order ((OrderQueue.new 2).addOrder order) ∧
          order.priority = k) :=
  ⟨by decide, by decide, ⟨⟨3, "Soup", 6, 9⟩, by simp, rfl⟩,
    (priority_range 32767 (by decide) 4
      (Menu.mk [⟨1, "Tea", 2, 3⟩, ⟨3, "Soup", 6, 9⟩, ⟨3, "Stew", 8, 9⟩]) (OrderQueue.new 2) 3
      (by decide) ⟨⟨3, "Soup", 6, 9⟩, by simp, rfl⟩).2.1⟩

/-- C9 fails on the code at a menu entry with id 0: on the menu
`[(0, Tea, 2, 3)]` the request for id 0 matches the entry and `getItemById`
returns it, yet `placeOrder` takes the branch reporting an invalid choice and
submits nothing, where the claim promises one order with item id 0 and
preparation time 2. On every menu a request for id 0 ends this way: the test
`item.id != 0` cannot tell a found entry with id 0 from the synthetic item of
a failed lookup. -/
theorem placeOrder_zero_id_not_submitted :
    (∃ item ∈ (Menu.mk [⟨0, "Tea", 2, 3⟩]).menuItems, item.id = 0) ∧
    (Menu.mk [⟨0, "Tea", 2, 3⟩]).getItemById 0 = ⟨0, "Tea", 2, 3⟩ ∧
    Client.placeOrder 4 (Menu.mk [⟨0, "Tea", 2, 3⟩]) (OrderQueue.new 2) 0 11
      = PlaceOutcome.invalidChoice (OrderQueue.new 2) ∧
    (¬ ∃ order result, Client.placeOrder 4 (Menu.mk [⟨0, "Tea", 2, 3⟩]) (OrderQueue.new 2) 0 11
      = PlaceOutcome.submitted order result) ∧
    (∀ (clientId : Int) (menu : Menu) (orderQueue : OrderQueue) (r : Nat),
      Client.placeOrder clientId menu orderQueue 0 r
        = PlaceOutcome.invalidChoice orderQueue) := by
  have hall : ∀ (clientId : Int) (menu : Menu) (orderQueue : OrderQueue) (r : Nat),
      Client.placeOrder clientId menu orderQueue 0 r
        = PlaceOutcome.invalidChoice orderQueue := by
    intro clientId menu orderQueue r
    have hzero : (menu.getItemById 0).id = 0 := by
      by_cases hhit : ∃ item ∈ menu.menuItems, item.id = 0
      · obtain ⟨item, _, hget, hid⟩ := getItemByIdLoop_hit menu.menuItems 0 hhit
        simp only [Menu.getItemById, hget, hid]
      · have hmiss : ∀ item ∈ menu.menuItems, item.id ≠ 0 :=
          fun item hm hid => hhit ⟨item, hm, hid⟩
        simp only [Menu.getItemById, getItemByIdLoop_miss menu.menuItems 0 hmiss]
    unfold Client.placeOrder
    exact if_neg (fun h => h hzero)
  refine ⟨⟨⟨0, "Tea", 2, 3⟩, by simp, rfl⟩, rfl, hall _ _ _ _, ?_, hall⟩
  rintro ⟨order, result, h⟩
  rw [hall] at h
  exact PlaceOutcome.noConfusion h

/-- C10: `N ≤ capacity` orders added to a fresh queue and then drained by `N`
consecutive `getOrder` calls come back in non-decreasing order of priority
value, as a permutation of the orders added; and with capacity 2, adding `A`
(priority 3) and `B` (priority 1), getting, adding `D` (priority 2) and getting
twice returns `B`, then `D`, then `A`. -/
theorem drain_order (C : Nat) (os : List Order) (hcap : os.length ≤ C) :
    (∃ q got, OrderQueue.run (OrderQueue.new C)
        (os.map Op.add ++ List.replicate os.length Op.get) = some (q, got) ∧
      got.Pairwise (fun a b => a.priority ≤ b.priority) ∧ got.Perm os ∧ q.orders = []) ∧
    (∀ A B D : Order, A.priority = 3 → B.priority = 1 → D.priority = 2 →
      ∃ q, OrderQueue.run (OrderQueue.new 2)
        [Op.add A, Op.add B, Op.get, Op.add D, Op.get, Op.get] = some (q, [B, D, A])) := by
  constructor
  · obtain ⟨q1, h1⟩ := run_adds os (OrderQueue.new C) (seqInv_new C) (by simpa [OrderQueue.new] using hcap)
    obtain ⟨inv1, hp1, _⟩ := run_inv _ _ q1 [] (seqInv_new C) h1
    have hadded : ∀ l : List Order, addedOrders (l.map Op.add) = l := by
      intro l
      induction l with
      | nil => rfl
      | cons a t ih => simp [addedOrders, ih]
    simp only [List.nil_append, OrderQueue.new, List.append_nil, hadded] at hp1
    obtain ⟨q2, got, h2, hsorted, hp2⟩ := run_gets os.length q1 inv1 hp1.length_eq
    have h3 := run_append _ _ _ q1 q2 [] got h1 h2
    obtain ⟨_, hp3, _⟩ := run_inv _ _ q2 got inv1 h2
    refine ⟨q2, got, by simpa using h3, hsorted, hp2.trans hp1, ?_⟩
    have hl2 := hp2.length_eq
    have hl3 := hp3.length_eq
    have hadded2 : ∀ n : Nat, addedOrders (List.replicate n Op.get) = [] := by
      intro n
      induction n with
      | zero => rfl
      | succ n ih => simp [List.replicate_succ, addedOrders, ih]
    simp only [hadded2, List.length_append, List.nil_append] at hl3
    exact List.length_eq_zero.mp (by omega)
  · intro A B D hA hB hD
    obtain ⟨a1, a2, a3, a4⟩ := A
    obtain ⟨b1, b2, b3, b4⟩ := B
    obtain ⟨d1, d2, d3, d4⟩ := D
    simp only at hA hB hD
    subst hA hB hD
    refine ⟨⟨[], 1, 0, 2⟩, ?_⟩
    simp [OrderQueue.run, addOrder_eq, getOrder_eq, OrderQueue.new, pq_push, pq_top, pq_pop,
      std_push_heap, std_push_heap_at, push_heap_loop, std_pop_heap, std_adjust_heap,
      adjust_heap_loop, adjust_heap_last, at_, Order.lt]

/-- Witness for C10: three orders into a queue of capacity 3. -/
theorem drain_order_witness :
    [(⟨1, 7, 4, 3⟩ : Order), ⟨2, 8, 5, 1⟩, ⟨3, 9, 6, 2⟩].length ≤ 3 ∧
    ∃ q got, OrderQueue.run (OrderQueue.new 3)
        ([(⟨1, 7, 4, 3⟩ : Order), ⟨2, 8, 5, 1⟩, ⟨3, 9, 6, 2⟩].map Op.add
          ++ List.replicate [(⟨1, 7, 4, 3⟩ : Order), ⟨2, 8, 5, 1⟩, ⟨3, 9, 6, 2⟩].length Op.get)
        = some (q, got) ∧
      got.Pairwise (fun a b => a.priority ≤ b.priority) ∧
      got.Perm [(⟨1, 7, 4, 3⟩ : Order), ⟨2, 8, 5, 1⟩, ⟨3, 9, 6, 2⟩] ∧ q.orders = [] :=
  ⟨by decide, (drain_order 3 [⟨1, 7, 4, 3⟩, ⟨2, 8, 5, 1⟩, ⟨3, 9, 6, 2⟩] (by decide)).1⟩

end Restaurant
